import Mathlib

/-!
# Verification of the iterative-inference core

A shallow embedding of the hierarchical latent-variable model core:

* `lib/distributions/normal.py` — the `Normal` distribution (sampling,
  log-probability, cdf, re-initialization);
* `lib/models/model.py` — the abstract `Model` (KL divergences, conditional
  log-likelihoods, ELBO).

Tensors are modelled as rose trees of exact rationals: a tensor is either a
scalar entry (`sc`), or a (possibly empty) list of slices along its leading
dimension, encoded as a `nil`/`cons` spine so that every operation is plain
structural recursion.  Floating-point arithmetic is modelled by exact `ℚ`
arithmetic; the transcendental kernels (`exp`, `log`, `erf`) and the float
constants `log(2π)` and `sqrt(2)` are abstract parameters collected in
`MathOps`, so every theorem holds for an arbitrary interpretation of them.
Python exceptions (torch shape errors, `AttributeError` on unset `None`
parameters, the `assert` in `log_prob`) are modelled with `Except String`;
the random draw `mean.data.new(mean.size()).normal_()` is modelled by an
explicit `noise` argument (an oracle for the RNG).
-/

/-- Abstract interpretation of the scalar math functions and float constants
used by `normal.py` (`exp`, `log`, `erf`, `math.log(2 * math.pi)`,
`math.sqrt(2)`). -/
structure MathOps where
  exp : ℚ → ℚ
  log : ℚ → ℚ
  erf : ℚ → ℚ
  log2pi : ℚ
  sqrt2 : ℚ

/-- A tensor: a scalar entry, or a spine of slices along the leading
dimension (`nil` = no slices, `cons head rest`). -/
inductive Tensor where
  | sc : ℚ → Tensor
  | nil : Tensor
  | cons : Tensor → Tensor → Tensor
deriving Repr, DecidableEq

/-- Build a dimension node from a list of slices. -/
def Tensor.ofSlices : List Tensor → Tensor :=
  fun l => l.foldr Tensor.cons Tensor.nil

/-- A rank-1 tensor from a list of rationals. -/
def Tensor.ofList (l : List ℚ) : Tensor :=
  Tensor.ofSlices (l.map Tensor.sc)

/-- Number of slices along the leading dimension. -/
def Tensor.len : Tensor → ℕ
  | .cons _ r => Tensor.len r + 1
  | _ => 0

/-- The shape (`tensor.data.shape`), read off the leading slices. -/
def Tensor.shape : Tensor → List ℕ
  | .sc _ => []
  | .nil => [0]
  | .cons t r => (Tensor.len r + 1) :: Tensor.shape t

/-- `len(tensor.data.shape)`. -/
def Tensor.rank (t : Tensor) : ℕ :=
  (Tensor.shape t).length

/-- The tensor is a well-formed tensor of the given shape (all slices of a
dimension share the shape of the remaining dimensions). -/
def Tensor.hasShape : Tensor → List ℕ → Bool
  | .sc _, [] => true
  | .nil, n :: _ => n == 0
  | .cons t r, n :: ns =>
    match n with
    | 0 => false
    | m + 1 => Tensor.hasShape t ns && Tensor.hasShape r (m :: ns)
  | _, _ => false

/-- The index tuple is within bounds for the given shape. -/
def Tensor.validIdx : List ℕ → List ℕ → Bool
  | [], [] => true
  | i :: p, n :: ns => decide (i < n) && Tensor.validIdx p ns
  | _, _ => false

/-- Entry of a tensor at a (full) index tuple; `0` junk out of bounds. -/
def Tensor.get : Tensor → List ℕ → ℚ
  | .sc q, [] => q
  | .cons t _, 0 :: p => Tensor.get t p
  | .cons _ r, (i + 1) :: p => Tensor.get r (i :: p)
  | _, _ => 0

/-- The index tuple leads to a scalar entry. -/
def Tensor.gok : Tensor → List ℕ → Bool
  | .sc _, [] => true
  | .cons t _, 0 :: p => Tensor.gok t p
  | .cons _ r, (i + 1) :: p => Tensor.gok r (i :: p)
  | _, _ => false

/-- Elementwise unary operation (torch `mul(c)`, `exp()`, `add(c)`,
`pow(2)`, `erf`, `log`, and their in-place variants act this way on the
tensor they are applied to). -/
def Tensor.map (f : ℚ → ℚ) : Tensor → Tensor
  | .sc q => .sc (f q)
  | .nil => .nil
  | .cons t r => .cons (Tensor.map f t) (Tensor.map f r)

/-- Elementwise binary operation on same-shaped tensors, with torch's
0-dimensional (python scalar) broadcast on either side. -/
def Tensor.zip (f : ℚ → ℚ → ℚ) : Tensor → Tensor → Tensor
  | .sc a, t => Tensor.map (fun x => f a x) t
  | t, .sc b => Tensor.map (fun x => f x b) t
  | .nil, _ => .nil
  | _, .nil => .nil
  | .cons t r, .cons u s => .cons (Tensor.zip f t u) (Tensor.zip f r s)

/-- A spine of `n` copies of a slice. -/
def Tensor.repl : ℕ → Tensor → Tensor
  | 0, _ => .nil
  | n + 1, t => .cons t (Tensor.repl n t)

/-- `t.unsqueeze(0)`: insert a leading axis of size 1. -/
def Tensor.unsqueeze0 (t : Tensor) : Tensor :=
  .cons t .nil

/-- `t.unsqueeze(1)`: insert an axis of size 1 at position 1. -/
def Tensor.unsqueeze1 : Tensor → Tensor
  | .cons t r => .cons (.cons t .nil) (Tensor.unsqueeze1 r)
  | t => t

/-- `t.unsqueeze(1).repeat(1, n, 1, ..., 1)`: broadcast every batch slice
across a fresh sample dimension of size `n` at axis 1. -/
def Tensor.expandSample (n : ℕ) : Tensor → Tensor
  | .cons t r => .cons (Tensor.repl n t) (Tensor.expandSample n r)
  | t => t

/-- Concatenate two spines along the leading dimension. -/
def Tensor.append : Tensor → Tensor → Tensor
  | .cons t r, u => .cons t (Tensor.append r u)
  | _, u => u

/-- `n` concatenated copies along the leading dimension. -/
def Tensor.replFlat : ℕ → Tensor → Tensor
  | 0, _ => .nil
  | b + 1, t => Tensor.append t (Tensor.replFlat b t)

/-- `t[:1]`: keep at most the first leading slice. -/
def Tensor.slice1 : Tensor → Tensor
  | .cons t _ => .cons t .nil
  | t => t

/-- `t.shape[0]`; `none` (an `IndexError`) on a 0-dimensional tensor. -/
def Tensor.dim0 : Tensor → Option ℕ
  | .sc _ => none
  | t => some (Tensor.len t)

/-- `t.repeat(b, 1)`: tile `b` times along axis 0.  torch promotes tensors
of rank below 2 by prepending singleton axes, and raises a `RuntimeError`
when the tensor has more dimensions than the repeat argument (rank above
2). -/
def Tensor.repeat2 (b : ℕ) (t : Tensor) : Except String Tensor :=
  match Tensor.rank t with
  | 0 => .ok (Tensor.repl b (.cons t .nil))
  | 1 => .ok (Tensor.repl b t)
  | 2 => .ok (Tensor.replFlat b t)
  | _ + 3 => .error "RuntimeError: number of dims of repeat can not be smaller than number of dims of tensor"

/-- Sum over the leading dimension (torch `sum(0)`, keepdim=False); `none`
models the error on an empty or 0-dimensional operand. -/
def Tensor.sumDim0 : Tensor → Option Tensor
  | .cons t .nil => some t
  | .cons t r => (Tensor.sumDim0 r).map (Tensor.zip (· + ·) t)
  | _ => none

/-- A torch reduction at a dimension above 0: apply the reduction for the
next-lower dimension inside every leading slice; a scalar operand means the
requested dimension is at or beyond the rank, torch's out-of-range
`RuntimeError`, modelled by `none`. -/
def Tensor.inSlices (g : Tensor → Option Tensor) : Tensor → Option Tensor
  | .sc _ => none
  | .nil => some .nil
  | .cons t r =>
    match g t, Tensor.inSlices g r with
    | some u, some v => some (.cons u v)
    | _, _ => none

/-- torch `sum(dim)` with keepdim=False; `none` models the
dimension-out-of-range `RuntimeError` raised when `dim` is at or beyond the
tensor's rank. -/
def Tensor.sumDim : ℕ → Tensor → Option Tensor
  | 0 => Tensor.sumDim0
  | d + 1 => Tensor.inSlices (Tensor.sumDim d)

/-- Mean over the leading dimension (torch `mean(0)`, keepdim=False). -/
def Tensor.meanDim0 (t : Tensor) : Option Tensor :=
  (Tensor.sumDim0 t).map (Tensor.map (· / (Tensor.len t : ℚ)))

/-- torch `mean(dim)` with keepdim=False. -/
def Tensor.meanDim : ℕ → Tensor → Option Tensor
  | 0 => Tensor.meanDim0
  | d + 1 => Tensor.inSlices (Tensor.meanDim d)

/-- The loop `while len(log_prob.data.shape) > 2: log_prob =
log_prob.sum(last_dim)` of `Model.conditional_log_likelihoods`, with the
initial rank as fuel (each successful sum removes one dimension). -/
def Tensor.sumTrailingFuel : ℕ → Tensor → Option Tensor
  | 0, t => if Tensor.rank t ≤ 2 then some t else none
  | f + 1, t =>
    if Tensor.rank t ≤ 2 then some t
    else (Tensor.sumDim (Tensor.rank t - 1) t).bind (Tensor.sumTrailingFuel f)

/-- Sum away every dimension after the first two (batch and sample). -/
def Tensor.sumTrailing (t : Tensor) : Option Tensor :=
  Tensor.sumTrailingFuel (Tensor.rank t) t

/-- Python's builtin `sum` over a list of same-shaped tensors: starts from
the integer `0` (a 0-dimensional scalar, broadcast by the first tensor
addition). -/
def Tensor.pySum (l : List Tensor) : Tensor :=
  l.foldl (fun acc t => Tensor.zip (· + ·) acc t) (.sc 0)

/-- All valid index tuples of a shape, in lexicographic order. -/
def Tensor.allIdx : List ℕ → List (List ℕ)
  | [] => [[]]
  | n :: ns => ((List.range n).map (fun i => (Tensor.allIdx ns).map (fun p => i :: p))).flatten

namespace Lib

/-! ## The `Normal` distribution (`lib/distributions/normal.py`) -/

/-- State of a `Normal` object: the learnable reset parameters fixed at
construction, the current `mean` and `log_var` (unset = python `None`), and
the cached `_sample`. -/
structure Normal where
  mean_reset_value : Tensor
  log_var_reset_value : Tensor
  mean : Option Tensor
  log_var : Option Tensor
  _sample : Option Tensor
deriving Repr, DecidableEq

/-- `Normal(mean=None, log_var=None, n_variables)`: zero reset parameters of
shape `[n_variables]`, everything else unset. -/
def Normal.init (n_variables : ℕ) : Normal :=
  { mean_reset_value := Tensor.repl n_variables (.sc 0)
    log_var_reset_value := Tensor.repl n_variables (.sc 0)
    mean := none
    log_var := none
    _sample := none }

/-- `Normal.sample(n_samples, resample)`.  Returns the cached sample unless
`resample` or no cache exists; otherwise reparameterizes `noise * std +
mean` with `std = exp(0.5 * log_var)`, broadcasting rank-2 parameters
(`len(self.mean.size()) == 2`) across a sample dimension at axis 1, and
caches the result.  `noise` stands for the i.i.d. draw
`mean.data.new(mean.size()).normal_()`.  Unset `log_var`/`mean` raise
(`AttributeError` on `None`), modelled as `Except.error`. -/
def Normal.sample (ops : MathOps) (d : Normal) (noise : Tensor) (n_samples : ℕ)
    (resample : Bool) : Except String (Tensor × Normal) :=
  if d._sample.isNone || resample then
    match d.log_var with
    | none => .error "AttributeError: NoneType object has no attribute mul"
    | some log_var =>
      match d.mean with
      | none => .error "AttributeError: NoneType object has no attribute size"
      | some mean =>
        let std := Tensor.map ops.exp (Tensor.map (· * (1 / 2)) log_var)
        let ms :=
          if Tensor.rank mean = 2 then
            (Tensor.expandSample n_samples mean, Tensor.expandSample n_samples std)
          else (mean, std)
        let s := Tensor.zip (· + ·) (Tensor.zip (· * ·) noise ms.2) ms.1
        .ok (s, { d with _sample := some s })
  else
    match d._sample with
    | some s => .ok (s, d)
    | none => .ok (.sc 0, d)

/-- The pure elementwise kernel of `Normal.cdf` once both parameters are
set: `(1 + erf((value - mean) / (sqrt(2) * std).add(1e-5))).mul_(0.5)` with
`std = log_var.mul(0.5).exp_()`, rank-2 parameters broadcast across the
sample dimension (`n = value.data.shape[1]`). -/
def Normal.cdf_core (ops : MathOps) (mean log_var value : Tensor) (n : ℕ) : Tensor :=
  let std := Tensor.map ops.exp (Tensor.map (· * (1 / 2)) log_var)
  let ms :=
    if Tensor.rank mean = 2 then
      (Tensor.expandSample n mean, Tensor.expandSample n std)
    else (mean, std)
  Tensor.map (· * (1 / 2)) (Tensor.map (fun x => 1 + x) (Tensor.map ops.erf
    (Tensor.zip (· / ·) (Tensor.zip (· - ·) value ms.1)
      (Tensor.map (· + 1 / 100000) (Tensor.map (fun x => ops.sqrt2 * x) ms.2)))))

/-- `Normal.cdf(value)`: reads `value.data.shape[1]` (IndexError below rank
2), then evaluates the error-function form of the Gaussian cdf; unset
parameters raise. -/
def Normal.cdf (ops : MathOps) (d : Normal) (value : Tensor) : Except String Tensor :=
  match (Tensor.shape value)[1]? with
  | none => .error "IndexError: tuple index out of range"
  | some n =>
    match d.log_var with
    | none => .error "AttributeError: NoneType object has no attribute mul"
    | some log_var =>
      match d.mean with
      | none => .error "AttributeError: NoneType object has no attribute size"
      | some mean => .ok (Normal.cdf_core ops mean log_var value n)

/-- A python argument to `Normal.log_prob`: a tensor, a 2-tuple of tensors,
or `None`. -/
inductive PyValue where
  | tensor : Tensor → PyValue
  | pair : Tensor → Tensor → PyValue
  | pynone : PyValue

/-- The pure elementwise kernel of `Normal.log_prob` on the density branch:
`(log_var.add(log(2π)).add_((value.sub(mean).pow_(2)).div_(log_var.exp().add(1e-5)))).mul_(-0.5)`,
with parameters of rank 2 (`repeat(1, n, 1)`) or rank 4
(`repeat(1, n, 1, 1, 1)`) broadcast across the sample dimension
`n = value.data.shape[1]`. -/
def Normal.log_prob_core (ops : MathOps) (mean log_var value : Tensor) (n : ℕ) : Tensor :=
  let ml :=
    if Tensor.rank mean = 2 ∨ Tensor.rank mean = 4 then
      (Tensor.expandSample n mean, Tensor.expandSample n log_var)
    else (mean, log_var)
  Tensor.map (· * (-(1 / 2)))
    (Tensor.zip (· + ·) (Tensor.map (· + ops.log2pi) ml.2)
      (Tensor.zip (· / ·)
        (Tensor.map (fun x => x ^ 2) (Tensor.zip (· - ·) value ml.1))
        (Tensor.map (· + 1 / 100000) (Tensor.map ops.exp ml.2))))

/-- The density branch of `Normal.log_prob` after the `value is None`
resolution: the `assert self.mean is not None and self.log_var is not None`
precondition, then `n_samples = value.data.shape[1]`, then the kernel. -/
def Normal.log_prob_eval (ops : MathOps) (d : Normal) (v : Tensor) :
    Except String (Tensor × Normal) :=
  match d.mean, d.log_var with
  | some mean, some log_var =>
    match (Tensor.shape v)[1]? with
    | none => .error "IndexError: tuple index out of range"
    | some n => .ok (Normal.log_prob_core ops mean log_var v n, d)
  | _, _ => .error "AssertionError: Mean or log variance are None."

/-- `Normal.log_prob(value)`: on a tuple, the interval log-mass
`log(cdf(value[1]) - cdf(value[0]) + 1e-6)`; on `None`, the cached/drawn
sample is substituted (`value = self.sample()`); otherwise the Gaussian
log-density kernel guarded by the assert. -/
def Normal.log_prob (ops : MathOps) (d : Normal) (noise : Tensor) (value : PyValue) :
    Except String (Tensor × Normal) :=
  match value with
  | .pair v0 v1 =>
    match Normal.cdf ops d v1 with
    | .error e => .error e
    | .ok c1 =>
      match Normal.cdf ops d v0 with
      | .error e => .error e
      | .ok c0 =>
        .ok (Tensor.map ops.log (Tensor.map (· + 1 / 1000000) (Tensor.zip (· - ·) c1 c0)), d)
  | .pynone =>
    match Normal.sample ops d noise 1 false with
    | .error e => .error e
    | .ok (v, d') => Normal.log_prob_eval ops d' v
  | .tensor v => Normal.log_prob_eval ops d v

/-- `Normal.re_init_mean(value, batch_size, sample_dim)`: the given value or
the zero-state `mean_reset_value.unsqueeze(0)`, re-tiled through
`mean[:1].repeat(batch_size, 1)` when the leading dimension differs from
`batch_size`, a sample axis inserted at 1 when `sample_dim`; on success the
mean is committed and the cached sample is cleared. -/
def Normal.re_init_mean (d : Normal) (value : Option Tensor) (batch_size : ℕ)
    (sample_dim : Bool) : Except String Normal :=
  let mean0 := match value with
    | some v => v
    | none => Tensor.unsqueeze0 d.mean_reset_value
  match Tensor.dim0 mean0 with
  | none => .error "IndexError: tuple index out of range"
  | some b0 =>
    match (if b0 ≠ batch_size then Tensor.repeat2 batch_size (Tensor.slice1 mean0)
           else .ok mean0) with
    | .error e => .error e
    | .ok mean1 =>
      let mean2 := if sample_dim then Tensor.unsqueeze1 mean1 else mean1
      .ok { d with mean := some mean2, _sample := none }

/-- `Normal.re_init_log_var(value, batch_size, sample_dim)`: identical to
`re_init_mean` on the `log_var` side. -/
def Normal.re_init_log_var (d : Normal) (value : Option Tensor) (batch_size : ℕ)
    (sample_dim : Bool) : Except String Normal :=
  let lv0 := match value with
    | some v => v
    | none => Tensor.unsqueeze0 d.log_var_reset_value
  match Tensor.dim0 lv0 with
  | none => .error "IndexError: tuple index out of range"
  | some b0 =>
    match (if b0 ≠ batch_size then Tensor.repeat2 batch_size (Tensor.slice1 lv0)
           else .ok lv0) with
    | .error e => .error e
    | .ok lv1 =>
      let lv2 := if sample_dim then Tensor.unsqueeze1 lv1 else lv1
      .ok { d with log_var := some lv2, _sample := none }

/-- `Normal.re_init(mean_value, log_var_value, batch_size, sample_dim)`:
`re_init_mean` then `re_init_log_var`. -/
def Normal.re_init (d : Normal) (mean_value log_var_value : Option Tensor)
    (batch_size : ℕ) (sample_dim : Bool) : Except String Normal :=
  match Normal.re_init_mean d mean_value batch_size sample_dim with
  | .error e => .error e
  | .ok d' => Normal.re_init_log_var d' log_var_value batch_size sample_dim

/-! ## The abstract `Model` (`lib/models/model.py`)

The latent levels and the output distribution are built by concrete
subclasses; here each level is its `latent.kl_divergence(analytical)`
tensor-valued function and the output distribution is its `cdf` and
log-density maps, all with the model state (cached posterior samples,
decoder activations) held fixed as the claims require. -/

/-- The output distribution head as used by
`Model.conditional_log_likelihoods`: its `cdf` and its non-interval
log-density, with the model state fixed. -/
structure OutDist where
  cdf : Tensor → Tensor
  density : Tensor → Tensor

/-- The value handed to `output_dist.log_prob`: a plain tensor or an
`(observation, observation + output_interval)` tuple. -/
inductive ObsValue where
  | single : Tensor → ObsValue
  | interval : Tensor → Tensor → ObsValue

/-- The `log_prob` dispatch of a `Distribution` (`normal.py` lines 50-52):
on a tuple, `torch.log(cdf(value[1]) - cdf(value[0]) + 1e-6)`; otherwise
the log-density at the value. -/
def OutDist.log_prob (ops : MathOps) (od : OutDist) : ObsValue → Tensor
  | .single v => od.density v
  | .interval v0 v1 =>
    Tensor.map ops.log (Tensor.map (· + 1 / 1000000) (Tensor.zip (· - ·) (od.cdf v1) (od.cdf v0)))

/-- A `Model`: the ordered latent levels, bottom to top, each represented by
its `latent.kl_divergence(analytical)` result (state fixed), the output
distribution head, and the optional discretization interval. -/
structure Model where
  levelKLs : List (Bool → Tensor)
  output_dist : OutDist
  output_interval : Option ℚ

/-- One iteration of the `Model.kl_divergences` loop body for a level:
`level_kl = latent.kl_divergence(analytical)`, then `for dim in range(2,
len(level_kl.data.shape)): level_kl = level_kl.sum(dim)` (the range is
computed once, from the original rank, while each sum shrinks the tensor),
then `level_kl.mean(1)`. -/
def Model.klLevel (lk : Bool → Tensor) (analytical : Bool) : Option Tensor :=
  let t := lk analytical
  match (List.range' 2 (Tensor.rank t - 2)).foldlM (fun acc dim => Tensor.sumDim dim acc) t with
  | none => none
  | some t2 => Tensor.meanDim 1 t2

/-- The `kl` list accumulated by the `Model.kl_divergences` loop before the
batch-averaging step: one entry per latent level, bottom to top, with
`analytical = (level_ind == len(self.latent_levels) - 1)`, so analytic KL
exactly at the last (topmost) level. -/
def Model.kl_divergences_base (m : Model) : Option (List Tensor) :=
  let nl := m.levelKLs.length
  (List.range nl).mapM
    (fun i => Model.klLevel (m.levelKLs.getD i (fun _ => .sc 0)) (i == nl - 1))

/-- `Model.kl_divergences(averaged)`: the per-level list, batch-averaged
(`[level_kl.mean(dim=0) for level_kl in kl]`) iff `averaged`. -/
def Model.kl_divergences (m : Model) (averaged : Bool) : Option (List Tensor) :=
  match Model.kl_divergences_base m with
  | none => none
  | some kl => if averaged then kl.mapM (Tensor.meanDim 0) else some kl

/-- `Model.conditional_log_likelihoods(observation, averaged)` up to the
batch-averaging step: unsqueeze a sample dimension when the observation
rank is 2 or 4, form the `(observation, observation + output_interval)`
tuple when an interval is set, evaluate `output_dist.log_prob`, sum away
all trailing dimensions, mean over the sample dimension. -/
def Model.cll_base (ops : MathOps) (m : Model) (observation : Tensor) : Option Tensor :=
  let obs := if Tensor.rank observation = 2 ∨ Tensor.rank observation = 4 then
    Tensor.unsqueeze1 observation else observation
  let value : ObsValue := match m.output_interval with
    | some iv => .interval obs (Tensor.map (· + iv) obs)
    | none => .single obs
  let log_prob := OutDist.log_prob ops m.output_dist value
  match Tensor.sumTrailing log_prob with
  | none => none
  | some lp2 => Tensor.meanDim 1 lp2

/-- The final `averaged` branch of `Model.conditional_log_likelihoods`. -/
def Model.conditional_log_likelihoods (ops : MathOps) (m : Model) (observation : Tensor)
    (averaged : Bool) : Option Tensor :=
  match Model.cll_base ops m observation with
  | none => none
  | some lp3 => if averaged then Tensor.meanDim 0 lp3 else some lp3

/-- `Model.elbo(observation, averaged, anneal_weight)`:
`cond_log_like - anneal_weight * sum(kl)` from the unaveraged pieces,
batch-averaged at the end iff `averaged`. -/
def Model.elbo (ops : MathOps) (m : Model) (observation : Tensor) (averaged : Bool)
    (anneal_weight : ℚ) : Option Tensor :=
  match Model.conditional_log_likelihoods ops m observation false with
  | none => none
  | some cond_log_like =>
    match Model.kl_divergences m false with
    | none => none
    | some kl =>
      let e := Tensor.zip (· - ·) cond_log_like
        (Tensor.map (fun x => anneal_weight * x) (Tensor.pySum kl))
      if averaged then Tensor.meanDim 0 e else some e

/-! ## A store model for the frame properties

`Normal.cdf` and the density branch of `Normal.log_prob` mix allocating
torch calls (`mul(c)`, `add(c)`, `sub`, `exp()`, `-`, `/`, `torch.erf`,
`unsqueeze(1).repeat(...)`) with in-place ones (`exp_`, `pow_`, `div_`,
`add_`, `mul_`).  To state that the in-place calls only ever hit freshly
allocated intermediates, the two methods are transcribed over an explicit
store of tensors: references are indices, allocating ops append a cell,
in-place ops overwrite the cell of their receiver. -/

structure Heap where
  cells : List Tensor

/-- Dereference; junk `sc 0` for dangling references. -/
def Heap.read (h : Heap) (r : ℕ) : Tensor :=
  h.cells.getD r (.sc 0)

/-- Number of allocated cells. -/
def Heap.size (h : Heap) : ℕ :=
  h.cells.length

/-- Allocate a fresh cell; returns its reference. -/
def Heap.alloc (h : Heap) (t : Tensor) : ℕ × Heap :=
  (h.cells.length, ⟨h.cells ++ [t]⟩)

/-- Overwrite an existing cell. -/
def Heap.write (h : Heap) (r : ℕ) (t : Tensor) : Heap :=
  ⟨h.cells.set r t⟩

/-- An allocating elementwise unary torch call (`mul(c)`, `add(c)`,
`exp()`, `torch.erf`, ...). -/
def tNew1 (f : ℚ → ℚ) (a : ℕ) (h : Heap) : ℕ × Heap :=
  h.alloc (Tensor.map f (h.read a))

/-- An in-place elementwise unary torch call (`exp_()`, `pow_(2)`,
`mul_(c)`): overwrites its receiver and returns it. -/
def tInp1 (f : ℚ → ℚ) (a : ℕ) (h : Heap) : ℕ × Heap :=
  (a, h.write a (Tensor.map f (h.read a)))

/-- An allocating elementwise binary torch call (`sub`, `-`, `/`). -/
def tNew2 (f : ℚ → ℚ → ℚ) (a b : ℕ) (h : Heap) : ℕ × Heap :=
  h.alloc (Tensor.zip f (h.read a) (h.read b))

/-- An in-place elementwise binary torch call (`div_`, `add_`):
overwrites its first argument (the receiver) and returns it. -/
def tInp2 (f : ℚ → ℚ → ℚ) (a b : ℕ) (h : Heap) : ℕ × Heap :=
  (a, h.write a (Tensor.zip f (h.read a) (h.read b)))

/-- `unsqueeze(1).repeat(1, n, 1, ..., 1)`: `repeat` allocates. -/
def tExpand (n : ℕ) (a : ℕ) (h : Heap) : ℕ × Heap :=
  h.alloc (Tensor.expandSample n (h.read a))

/-- `Normal.cdf(value)` transcribed over the store, one torch call per
step, with `rmean`, `rlog_var`, `rvalue` the cells holding `self.mean`,
`self.log_var` and the caller's `value`. -/
def Normal.cdfST (ops : MathOps) (rmean rlog_var rvalue : ℕ) (h : Heap) : ℕ × Heap :=
  let n := ((Tensor.shape (h.read rvalue))[1]?).getD 0
  let s1 := tNew1 (· * (1 / 2)) rlog_var h
  let s2 := tInp1 ops.exp s1.1 s1.2
  let s3 :=
    if Tensor.rank (s2.2.read rmean) = 2 then
      let m1 := tExpand n rmean s2.2
      let m2 := tExpand n s2.1 m1.2
      (m1.1, m2.1, m2.2)
    else (rmean, s2.1, s2.2)
  let s4 := tNew2 (· - ·) rvalue s3.1 s3.2.2
  let s5 := tNew1 (fun x => ops.sqrt2 * x) s3.2.1 s4.2
  let s6 := tNew1 (· + 1 / 100000) s5.1 s5.2
  let s7 := tNew2 (· / ·) s4.1 s6.1 s6.2
  let s8 := tNew1 ops.erf s7.1 s7.2
  let s9 := tNew1 (fun x => 1 + x) s8.1 s8.2
  tInp1 (· * (1 / 2)) s9.1 s9.2

/-- The density branch of `Normal.log_prob(value)` (a set, non-`None`,
non-tuple `value`) transcribed over the store, one torch call per step. -/
def Normal.log_probST (ops : MathOps) (rmean rlog_var rvalue : ℕ) (h : Heap) : ℕ × Heap :=
  let n := ((Tensor.shape (h.read rvalue))[1]?).getD 0
  let ml :=
    if Tensor.rank (h.read rmean) = 2 ∨ Tensor.rank (h.read rmean) = 4 then
      let m1 := tExpand n rmean h
      let m2 := tExpand n rlog_var m1.2
      (m1.1, m2.1, m2.2)
    else (rmean, rlog_var, h)
  let t1 := tNew1 (· + ops.log2pi) ml.2.1 ml.2.2
  let t2 := tNew2 (· - ·) rvalue ml.1 t1.2
  let t3 := tInp1 (fun x => x ^ 2) t2.1 t2.2
  let t4 := tNew1 ops.exp ml.2.1 t3.2
  let t5 := tNew1 (· + 1 / 100000) t4.1 t4.2
  let t6 := tInp2 (· / ·) t3.1 t5.1 t5.2
  let t7 := tInp2 (· + ·) t1.1 t6.1 t6.2
  tInp1 (· * (-(1 / 2))) t7.1 t7.2

/-- The frame relation of the store: going from `h` to `h'`, every cell
below the watermark `k` is untouched (and the store never shrinks below
`k`, so later allocations stay above it). -/
def Heap.frameGE (k : ℕ) (h h' : Heap) : Prop :=
  k ≤ h'.size ∧ ∀ r, r < k → h'.read r = h.read r

/-! ## Claim-side formulations -/

/-- The claim's Gaussian log-density kernel, in the spec's orientation:
`-0.5 * (log_var + log(2π) + (value - mean)^2 / (exp(log_var) + 1e-5))`. -/
def gaussK (ops : MathOps) (m lv x : ℚ) : ℚ :=
  -(1 / 2) * (lv + ops.log2pi + (x - m) ^ 2 / (ops.exp lv + 1 / 100000))

/-- The spec's broadcast of a reset value: when the leading dimension does
not match the batch size, the first row (a rank-1 value promoted to a row)
is tiled `bs` times. -/
def firstRowBroadcast (bs : ℕ) : Tensor → Tensor
  | .cons r _ =>
    match r with
    | .sc q => Tensor.repl bs (.cons (.sc q) .nil)
    | r => Tensor.repl bs r
  | t => t

/-- The spec's description of the parameter committed by
`Normal.re_init_mean` / `re_init_log_var`: the given value, or the
zero-state unsqueezed to a single row; broadcast along axis 0 to
`batch_size` when the leading dimension differs; a sample axis inserted at
axis 1 when `sample_dim`. -/
def reinitParam (reset : Tensor) (value : Option Tensor) (bs : ℕ) (sd : Bool) : Tensor :=
  let v0 := value.getD (Tensor.unsqueeze0 reset)
  let v1 := if Tensor.dim0 v0 = some bs then v0 else firstRowBroadcast bs v0
  if sd then Tensor.unsqueeze1 v1 else v1

/-- A concrete interpretation of the abstract math kernels, for evaluating
theorems on explicit inputs. -/
def opsId : MathOps :=
  { exp := fun _ => 1, log := fun x => x, erf := fun x => x, log2pi := 0, sqrt2 := 1 }

/-- A concrete single-level model (dense case: the level KL has shape
`[batch, sample, variables] = [1, 1, 2]`), the identity output head, no
discretization interval. -/
def mC1 : Model :=
  { levelKLs := [fun _ => Tensor.ofSlices [Tensor.ofSlices [Tensor.ofList [1, 2]]]]
    output_dist := { cdf := fun t => t, density := fun t => t }
    output_interval := none }

/-- A concrete observation of shape `[batch, variables] = [1, 1]`. -/
def obsC1 : Tensor :=
  Tensor.ofSlices [Tensor.ofList [5]]

end Lib

/-! ## Shape and indexing lemmas -/

namespace Tensor

theorem len_of_hasShape : ∀ {t : Tensor} {n : ℕ} {ns : List ℕ},
    hasShape t (n :: ns) = true → len t = n
  | .sc _, _, _, h => by simp [hasShape] at h
  | .nil, n, ns, h => by
    simp [hasShape] at h
    simp [len, h]
  | .cons t r, n, ns, h => by
    match n, h with
    | m + 1, h =>
      simp [hasShape] at h
      simp [len, len_of_hasShape h.2]

theorem shape_head_of_hasShape : ∀ {t : Tensor} {n : ℕ} {ns : List ℕ},
    hasShape t (n :: ns) = true → ∃ rest, shape t = n :: rest
  | .sc _, _, _, h => by simp [hasShape] at h
  | .nil, n, ns, h => by
    simp [hasShape] at h
    exact ⟨[], by simp [shape, h]⟩
  | .cons t r, n, ns, h => by
    match n, h with
    | m + 1, h =>
      simp [hasShape] at h
      exact ⟨shape t, by simp [shape, len_of_hasShape h.2]⟩

theorem shape_get1_of_hasShape {t : Tensor} {b n : ℕ} {ns : List ℕ}
    (h : hasShape t (b :: n :: ns) = true) (hb : 0 < b) :
    (shape t)[1]? = some n := by
  match t, b, h with
  | .nil, b, h =>
    simp [hasShape] at h
    omega
  | .cons t r, b + 1, h =>
    simp [hasShape] at h
    obtain ⟨rest, hrest⟩ := shape_head_of_hasShape h.1
    simp [shape, hrest]

theorem shape_eq_of_hasShape : ∀ {t : Tensor} {s : List ℕ},
    hasShape t s = true → (∀ d ∈ s.dropLast, 0 < d) → shape t = s
  | .sc _, s, h, _ => by
    cases s with
    | nil => rfl
    | cons n ns => simp [hasShape] at h
  | .nil, s, h, hpos => by
    match s, h with
    | n :: ns, h =>
      simp [hasShape] at h
      subst h
      cases ns with
      | nil => rfl
      | cons m ms =>
        exact absurd (hpos 0 (by simp [List.dropLast])) (by omega)
  | .cons t r, s, h, hpos => by
    match s, h with
    | (m + 1) :: ns, h =>
      simp [hasShape] at h
      have hrest : ∀ d ∈ ns.dropLast, 0 < d := by
        intro d hd
        apply hpos
        cases ns with
        | nil => simp at hd
        | cons a as => simpa [List.dropLast] using Or.inr hd
      simp [shape, len_of_hasShape h.2, shape_eq_of_hasShape h.1 hrest]

theorem rank_eq_of_hasShape {t : Tensor} {s : List ℕ}
    (h : hasShape t s = true) (hpos : ∀ d ∈ s.dropLast, 0 < d) :
    rank t = s.length := by
  simp [rank, shape_eq_of_hasShape h hpos]

theorem gok_of_hasShape : ∀ (t : Tensor) (s p : List ℕ),
    hasShape t s = true → validIdx p s = true → gok t p = true
  | .sc _, [], [], _, _ => rfl
  | .sc _, [], _ :: _, _, hp => by simp [validIdx] at hp
  | .sc _, _ :: _, _, h, _ => by simp [hasShape] at h
  | .nil, [], _, h, _ => by simp [hasShape] at h
  | .nil, n :: ns, [], h, hp => by
    simp [hasShape] at h
    subst h
    simp [validIdx] at hp
  | .nil, n :: ns, i :: q, h, hp => by
    simp [hasShape] at h
    subst h
    simp [validIdx] at hp
  | .cons t r, [], _, h, _ => by simp [hasShape] at h
  | .cons t r, 0 :: ns, _, h, _ => by simp [hasShape] at h
  | .cons t r, (m + 1) :: ns, [], _, hp => by simp [validIdx] at hp
  | .cons t r, (m + 1) :: ns, 0 :: q, h, hp => by
    simp only [hasShape, Bool.and_eq_true] at h
    simp only [validIdx, Bool.and_eq_true] at hp
    show gok t q = true
    exact gok_of_hasShape t ns q h.1 hp.2
  | .cons t r, (m + 1) :: ns, (i + 1) :: q, h, hp => by
    simp only [hasShape, Bool.and_eq_true] at h
    simp only [validIdx, decide_eq_true_eq, Bool.and_eq_true] at hp
    show gok r (i :: q) = true
    refine gok_of_hasShape r (m :: ns) (i :: q) h.2 ?_
    simp [validIdx, hp.2]
    omega

theorem get_map (f : ℚ → ℚ) : ∀ (t : Tensor) (p : List ℕ),
    gok t p = true → get (map f t) p = f (get t p)
  | .sc q, [], _ => rfl
  | .sc q, _ :: _, h => by simp [gok] at h
  | .nil, _, h => by simp [gok] at h
  | .cons t r, [], h => by simp [gok] at h
  | .cons t r, 0 :: q, h => get_map f t q (by simpa [gok] using h)
  | .cons t r, (i + 1) :: q, h => get_map f r (i :: q) (by simpa [gok] using h)

theorem hasShape_map (f : ℚ → ℚ) : ∀ (t : Tensor) (s : List ℕ),
    hasShape (map f t) s = hasShape t s
  | .sc q, s => by cases s <;> rfl
  | .nil, s => by cases s <;> rfl
  | .cons t r, s => by
    cases s with
    | nil => rfl
    | cons n ns =>
      cases n with
      | zero => rfl
      | succ m => simp [map, hasShape, hasShape_map f t ns, hasShape_map f r (m :: ns)]

theorem zip_sc_left (f : ℚ → ℚ → ℚ) (a : ℚ) (t : Tensor) :
    zip f (.sc a) t = map (fun x => f a x) t := by
  cases t <;> rfl

theorem zip_sc_right (f : ℚ → ℚ → ℚ) (t : Tensor) (b : ℚ) :
    zip f t (.sc b) = map (fun x => f x b) t := by
  cases t <;> rfl

theorem get_zip (f : ℚ → ℚ → ℚ) : ∀ (a b : Tensor) (s p : List ℕ),
    hasShape a s = true → hasShape b s = true → validIdx p s = true →
    get (zip f a b) p = f (get a p) (get b p)
  | .sc x, .sc y, [], [], _, _, _ => rfl
  | .sc x, .sc y, [], _ :: _, _, _, hp => by simp [validIdx] at hp
  | .sc x, .nil, [], _, _, hb, _ => by simp [hasShape] at hb
  | .sc x, .cons _ _, [], _, _, hb, _ => by simp [hasShape] at hb
  | .sc x, _, _ :: _, _, ha, _, _ => by simp [hasShape] at ha
  | .nil, b, [], _, ha, _, _ => by simp [hasShape] at ha
  | .nil, b, n :: ns, [], ha, _, hp => by
    simp [hasShape] at ha
    subst ha
    simp [validIdx] at hp
  | .nil, b, n :: ns, i :: q, ha, _, hp => by
    simp [hasShape] at ha
    subst ha
    simp [validIdx] at hp
  | .cons t r, b, [], _, ha, _, _ => by simp [hasShape] at ha
  | .cons t r, b, 0 :: ns, _, ha, _, _ => by simp [hasShape] at ha
  | .cons t r, .sc y, (m + 1) :: ns, _, _, hb, _ => by simp [hasShape] at hb
  | .cons t r, .nil, (m + 1) :: ns, _, _, hb, _ => by simp [hasShape] at hb
  | .cons t r, .cons u v, (m + 1) :: ns, [], _, _, hp => by simp [validIdx] at hp
  | .cons t r, .cons u v, (m + 1) :: ns, 0 :: q, ha, hb, hp => by
    simp only [hasShape, Bool.and_eq_true] at ha hb
    simp only [validIdx, Bool.and_eq_true] at hp
    show get (zip f t u) q = f (get t q) (get u q)
    exact get_zip f t u ns q ha.1 hb.1 hp.2
  | .cons t r, .cons u v, (m + 1) :: ns, (i + 1) :: q, ha, hb, hp => by
    simp only [hasShape, Bool.and_eq_true] at ha hb
    simp only [validIdx, decide_eq_true_eq, Bool.and_eq_true] at hp
    show get (zip f r v) (i :: q) = f (get r (i :: q)) (get v (i :: q))
    refine get_zip f r v (m :: ns) (i :: q) ha.2 hb.2 ?_
    simp [validIdx, hp.2]
    omega

theorem hasShape_zip (f : ℚ → ℚ → ℚ) : ∀ (a b : Tensor) (s : List ℕ),
    hasShape a s = true → hasShape b s = true → hasShape (zip f a b) s = true
  | .sc x, .sc y, [], _, _ => rfl
  | .sc x, .nil, [], _, hb => by simp [hasShape] at hb
  | .sc x, .cons _ _, [], _, hb => by simp [hasShape] at hb
  | .sc x, _, _ :: _, ha, _ => by simp [hasShape] at ha
  | .nil, b, [], ha, _ => by simp [hasShape] at ha
  | .nil, .sc y, n :: ns, ha, hb => by simp [hasShape] at hb
  | .nil, .nil, n :: ns, ha, _ => by
    simp [hasShape] at ha
    simp [zip, hasShape, ha]
  | .nil, .cons u v, n :: ns, ha, hb => by
    simp [hasShape] at ha
    subst ha
    simp [hasShape] at hb
  | .cons t r, b, [], ha, _ => by simp [hasShape] at ha
  | .cons t r, b, 0 :: ns, ha, _ => by simp [hasShape] at ha
  | .cons t r, .sc y, (m + 1) :: ns, _, hb => by simp [hasShape] at hb
  | .cons t r, .nil, (m + 1) :: ns, _, hb => by simp [hasShape] at hb
  | .cons t r, .cons u v, (m + 1) :: ns, ha, hb => by
    simp only [hasShape, Bool.and_eq_true] at ha hb
    show hasShape (.cons (zip f t u) (zip f r v)) ((m + 1) :: ns) = true
    simp only [hasShape, Bool.and_eq_true]
    exact ⟨hasShape_zip f t u ns ha.1 hb.1, hasShape_zip f r v (m :: ns) ha.2 hb.2⟩

theorem len_repl (n : ℕ) (t : Tensor) : len (repl n t) = n := by
  induction n with
  | zero => rfl
  | succ m ih => simp [repl, len, ih]

theorem hasShape_repl (n : ℕ) : ∀ (u : Tensor) (ns : List ℕ),
    hasShape u ns = true → hasShape (repl n u) (n :: ns) = true := by
  induction n with
  | zero => intro u ns _; rfl
  | succ m ih =>
    intro u ns h
    simp only [repl, hasShape, Bool.and_eq_true]
    exact ⟨h, ih u ns h⟩

theorem get_repl : ∀ (n j : ℕ) (u : Tensor) (q : List ℕ), j < n →
    get (repl n u) (j :: q) = get u q
  | n + 1, 0, u, q, _ => rfl
  | n + 1, j + 1, u, q, h => get_repl n j u q (by omega)

theorem hasShape_expandSample (n : ℕ) : ∀ (t : Tensor) (b : ℕ) (ns : List ℕ),
    hasShape t (b :: ns) = true → hasShape (expandSample n t) (b :: n :: ns) = true
  | .sc _, b, ns, h => by simp [hasShape] at h
  | .nil, b, ns, h => by
    simp [hasShape] at h
    subst h
    rfl
  | .cons t r, b, ns, h => by
    match b, h with
    | m + 1, h =>
      simp only [hasShape, Bool.and_eq_true] at h
      show hasShape (.cons (repl n t) (expandSample n r)) ((m + 1) :: n :: ns) = true
      simp only [hasShape, Bool.and_eq_true]
      exact ⟨hasShape_repl n t ns h.1, hasShape_expandSample n r m ns h.2⟩

theorem get_expandSample (n : ℕ) : ∀ (t : Tensor) (i j : ℕ) (q : List ℕ), j < n →
    get (expandSample n t) (i :: j :: q) = get t (i :: q)
  | .sc _, i, j, q, _ => rfl
  | .nil, i, j, q, _ => rfl
  | .cons t r, 0, j, q, hj => by
    show get (repl n t) (j :: q) = get t q
    exact get_repl n j t q hj
  | .cons t r, i + 1, j, q, hj => by
    show get (expandSample n r) (i :: j :: q) = get r (i :: q)
    exact get_expandSample n r i j q hj

theorem hasShape_unsqueeze1 : ∀ (t : Tensor) (b : ℕ) (ns : List ℕ),
    hasShape t (b :: ns) = true → hasShape (unsqueeze1 t) (b :: 1 :: ns) = true
  | .sc _, b, ns, h => by simp [hasShape] at h
  | .nil, b, ns, h => by
    simp [hasShape] at h
    subst h
    rfl
  | .cons t r, b, ns, h => by
    match b, h with
    | m + 1, h =>
      simp only [hasShape, Bool.and_eq_true] at h
      show hasShape (.cons (.cons t .nil) (unsqueeze1 r)) ((m + 1) :: 1 :: ns) = true
      simp only [hasShape, Bool.and_eq_true]
      refine ⟨⟨h.1, rfl⟩, hasShape_unsqueeze1 r m ns h.2⟩

theorem get_unsqueeze1 : ∀ (t : Tensor) (i : ℕ) (q : List ℕ),
    get (unsqueeze1 t) (i :: 0 :: q) = get t (i :: q)
  | .sc _, i, q => rfl
  | .nil, i, q => rfl
  | .cons t r, 0, q => rfl
  | .cons t r, i + 1, q => by
    show get (unsqueeze1 r) (i :: 0 :: q) = get r (i :: q)
    exact get_unsqueeze1 r i q

/-! ## Reduction (sum / mean) lemmas -/

theorem sumDim0_spec : ∀ (t : Tensor) (k : ℕ) (ns : List ℕ),
    hasShape t (k :: ns) = true → 0 < k →
    ∃ u, sumDim0 t = some u ∧ hasShape u ns = true ∧
      ∀ q, validIdx q ns = true → get u q = ∑ j ∈ Finset.range k, get t (j :: q)
  | .sc _, k, ns, h, _ => by simp [hasShape] at h
  | .nil, k, ns, h, hk => by
    simp [hasShape] at h
    omega
  | .cons t r, k, ns, h, hk => by
    match k, h with
    | m + 1, h =>
      simp only [hasShape, Bool.and_eq_true] at h
      match r, h with
      | .nil, h =>
        have hm0 : m = 0 := by simpa [hasShape] using h.2
        subst hm0
        refine ⟨t, rfl, h.1, fun q _ => ?_⟩
        rw [Finset.sum_range_one]
        rfl
      | .cons t' r', h =>
        have hm : 0 < m := by
          have h2 := h.2
          cases m with
          | zero => simp [hasShape] at h2
          | succ m' => omega
        obtain ⟨u, hu, hus, huq⟩ := sumDim0_spec (.cons t' r') m ns h.2 hm
        refine ⟨zip (· + ·) t u, ?_, hasShape_zip _ t u ns h.1 hus, ?_⟩
        · show (sumDim0 (.cons t' r')).map (zip (· + ·) t) = some (zip (· + ·) t u)
          simp [hu]
        · intro q hq
          rw [get_zip (· + ·) t u ns q h.1 hus hq, huq q hq, Finset.sum_range_succ']
          simp [get]
          ring

theorem sumDim_spec : ∀ (pre : List ℕ) (t : Tensor) (k : ℕ) (post : List ℕ),
    hasShape t (pre ++ k :: post) = true → 0 < k →
    ∃ u, sumDim pre.length t = some u ∧ hasShape u (pre ++ post) = true ∧
      ∀ p q, validIdx p pre = true → validIdx q post = true →
        get u (p ++ q) = ∑ j ∈ Finset.range k, get t (p ++ j :: q)
  | [], t, k, post, h, hk => by
    obtain ⟨u, hu, hus, huq⟩ := sumDim0_spec t k post h hk
    refine ⟨u, hu, hus, ?_⟩
    intro p q hp hq
    match p, hp with
    | [], _ => simpa using huq q hq
  | a :: pre', .sc q0, k, post, h, hk => by simp [hasShape] at h
  | a :: pre', .nil, k, post, h, hk => by
    simp only [List.cons_append, hasShape, beq_iff_eq] at h
    subst h
    refine ⟨.nil, rfl, rfl, ?_⟩
    intro p q hp hq
    match p, hp with
    | i :: p', hp => simp [validIdx] at hp
  | 0 :: pre', .cons t r, k, post, h, hk => by
    simp [hasShape] at h
  | (m + 1) :: pre', .cons t r, k, post, h, hk => by
    replace h : hasShape t (pre' ++ k :: post) = true ∧
        hasShape r (m :: (pre' ++ k :: post)) = true := by
      simpa [hasShape] using h
    obtain ⟨u1, hu1, hu1s, hu1q⟩ := sumDim_spec pre' t k post h.1 hk
    obtain ⟨u2, hu2, hu2s, hu2q⟩ := sumDim_spec (m :: pre') r k post h.2 hk
    refine ⟨.cons u1 u2, ?_, ?_, ?_⟩
    · show inSlices (sumDim pre'.length) (.cons t r) = some (.cons u1 u2)
      simp only [inSlices]
      rw [show sumDim pre'.length t = some u1 from hu1]
      rw [show inSlices (sumDim pre'.length) r = some u2 from hu2]
    · show hasShape (.cons u1 u2) ((m + 1) :: (pre' ++ post)) = true
      simp only [hasShape, Bool.and_eq_true]
      exact ⟨hu1s, hu2s⟩
    · intro p q hp hq
      match p, hp with
      | 0 :: p', hp =>
        replace hp : validIdx p' pre' = true := by simpa [validIdx] using hp
        exact hu1q p' q hp hq
      | (i + 1) :: p', hp =>
        simp only [validIdx, decide_eq_true_eq, Bool.and_eq_true] at hp
        have hv : validIdx (i :: p') (m :: pre') = true := by
          simp [validIdx, hp.2]
          omega
        exact hu2q (i :: p') q hv hq

theorem meanDim0_spec (t : Tensor) (k : ℕ) (ns : List ℕ)
    (h : hasShape t (k :: ns) = true) (hk : 0 < k) :
    ∃ u, meanDim0 t = some u ∧ hasShape u ns = true ∧
      ∀ q, validIdx q ns = true → get u q = (∑ j ∈ Finset.range k, get t (j :: q)) / k := by
  obtain ⟨u, hu, hus, huq⟩ := sumDim0_spec t k ns h hk
  refine ⟨map (· / (k : ℚ)) u, ?_, ?_, ?_⟩
  · simp [meanDim0, hu, len_of_hasShape h]
  · simp [hasShape_map, hus]
  · intro q hq
    rw [get_map (· / (k : ℚ)) u q (gok_of_hasShape u ns q hus hq), huq q hq]

theorem meanDim1_spec : ∀ (t : Tensor) (a k : ℕ) (ns : List ℕ),
    hasShape t (a :: k :: ns) = true → 0 < k →
    ∃ u, meanDim 1 t = some u ∧ hasShape u (a :: ns) = true ∧
      ∀ i q, i < a → validIdx q ns = true →
        get u (i :: q) = (∑ j ∈ Finset.range k, get t (i :: j :: q)) / k
  | .sc _, a, k, ns, h, _ => by simp [hasShape] at h
  | .nil, a, k, ns, h, hk => by
    simp [hasShape] at h
    subst h
    exact ⟨.nil, rfl, rfl, fun i q hi _ => by omega⟩
  | .cons t r, a, k, ns, h, hk => by
    match a, h with
    | m + 1, h =>
      simp only [hasShape, Bool.and_eq_true] at h
      obtain ⟨u1, hu1, hu1s, hu1q⟩ := meanDim0_spec t k ns h.1 hk
      obtain ⟨u2, hu2, hu2s, hu2q⟩ := meanDim1_spec r m k ns h.2 hk
      refine ⟨.cons u1 u2, ?_, ?_, ?_⟩
      · show inSlices (meanDim 0) (.cons t r) = some (.cons u1 u2)
        simp only [inSlices]
        rw [show meanDim 0 t = meanDim0 t from rfl, hu1]
        rw [show inSlices (meanDim 0) r = meanDim 1 r from rfl, hu2]
      · show hasShape (.cons u1 u2) ((m + 1) :: ns) = true
        simp only [hasShape, Bool.and_eq_true]
        exact ⟨hu1s, hu2s⟩
      · intro i q hi hq
        match i with
        | 0 => exact hu1q q hq
        | i + 1 => exact hu2q i q (by omega) hq

theorem get_sc0 : ∀ (p : List ℕ), get (.sc 0) p = 0
  | [] => rfl
  | _ :: _ => rfl

theorem list_range_map_sum (k : ℕ) (f : ℕ → ℚ) :
    ((List.range k).map f).sum = ∑ j ∈ Finset.range k, f j := by
  induction k with
  | zero => simp
  | succ m ih =>
    rw [List.range_succ, Finset.sum_range_succ]
    simp [ih]

theorem allIdx_valid : ∀ (ns : List ℕ) (p : List ℕ),
    p ∈ allIdx ns → validIdx p ns = true := by
  intro ns
  induction ns with
  | nil =>
    intro p hp
    simp [allIdx] at hp
    simp [hp, validIdx]
  | cons n ns ih =>
    intro p hp
    simp only [allIdx, List.mem_flatten, List.mem_map] at hp
    obtain ⟨l, ⟨i, hi, hl⟩, hpl⟩ := hp
    subst hl
    simp only [List.mem_map] at hpl
    obtain ⟨p', hp', hpp⟩ := hpl
    subst hpp
    simp only [validIdx, Bool.and_eq_true, decide_eq_true_eq]
    exact ⟨List.mem_range.mp hi, ih p' hp'⟩

theorem allIdx_cons_sum (n : ℕ) (ns : List ℕ) (f : List ℕ → ℚ) :
    ((allIdx (n :: ns)).map f).sum =
      ((List.range n).map (fun i => ((allIdx ns).map (fun p => f (i :: p))).sum)).sum := by
  simp only [allIdx, List.map_flatten, List.sum_flatten, List.map_map, Function.comp_def]

theorem allIdx_snoc_sum : ∀ (ns : List ℕ) (d : ℕ) (f : List ℕ → ℚ),
    ((allIdx (ns ++ [d])).map f).sum =
      ((allIdx ns).map (fun p => ∑ j ∈ Finset.range d, f (p ++ [j]))).sum := by
  intro ns
  induction ns with
  | nil =>
    intro d f
    rw [List.nil_append, allIdx_cons_sum d [] f]
    simp only [allIdx, List.map_cons, List.map_nil, List.sum_cons, List.sum_nil, add_zero,
      List.nil_append]
    rw [list_range_map_sum d (fun j => f [j])]
  | cons n ns ih =>
    intro d f
    rw [List.cons_append, allIdx_cons_sum n (ns ++ [d]) f,
      allIdx_cons_sum n ns (fun p => ∑ j ∈ Finset.range d, f (p ++ [j]))]
    congr 1
    apply List.map_congr_left
    intro i _
    rw [ih d (fun p => f (i :: p))]
    congr 1

theorem sumTrailingFuel_spec : ∀ (ds : List ℕ) (fuel : ℕ) (t : Tensor) (a b : ℕ),
    hasShape t (a :: b :: ds) = true → 0 < a → 0 < b → (∀ d ∈ ds, 0 < d) →
    ds.length ≤ fuel →
    ∃ u, sumTrailingFuel fuel t = some u ∧ hasShape u [a, b] = true ∧
      ∀ i j, i < a → j < b →
        get u [i, j] = ((allIdx ds).map (fun p => get t (i :: j :: p))).sum := by
  intro ds
  induction ds using List.reverseRecOn with
  | nil =>
    intro fuel t a b h ha hb _ _
    have hshape : shape t = [a, b] := by
      apply shape_eq_of_hasShape h
      intro x hx
      simp [List.dropLast] at hx
      omega
    have hrank : rank t ≤ 2 := by simp [rank, hshape]
    refine ⟨t, ?_, h, ?_⟩
    · cases fuel with
      | zero => simp [sumTrailingFuel, hrank]
      | succ f => simp [sumTrailingFuel, hrank]
    · intro i j _ _
      simp [allIdx]
  | append_singleton ds' d ih =>
    intro fuel t a b h ha hb hpos hfuel
    cases fuel with
    | zero => simp at hfuel
    | succ f =>
      have hpos' : ∀ x ∈ ds', 0 < x := fun x hx => hpos x (by simp [hx])
      have hd : 0 < d := hpos d (by simp)
      have hshape : shape t = a :: b :: (ds' ++ [d]) := by
        apply shape_eq_of_hasShape h
        intro x hx
        rw [show a :: b :: (ds' ++ [d]) = (a :: b :: ds') ++ [d] by simp,
          List.dropLast_concat] at hx
        simp only [List.mem_cons] at hx
        rcases hx with rfl | rfl | hx
        · omega
        · omega
        · exact hpos' x hx
      have hrank : rank t = ds'.length + 3 := by simp [rank, hshape]
      obtain ⟨u1, hu1, hu1s, hu1q⟩ :=
        sumDim_spec (a :: b :: ds') t d [] (by simpa using h) hd
      rw [List.append_nil] at hu1s
      have hstep : sumTrailingFuel (f + 1) t
          = (sumDim (ds'.length + 2) t).bind (sumTrailingFuel f) := by
        rw [show sumTrailingFuel (f + 1) t = (if rank t ≤ 2 then some t
          else (sumDim (rank t - 1) t).bind (sumTrailingFuel f)) from rfl]
        rw [hrank, if_neg (by omega), show ds'.length + 3 - 1 = ds'.length + 2 from by omega]
      have hu1' : sumDim (ds'.length + 2) t = some u1 := by simpa using hu1
      obtain ⟨u, hu, hus, huq⟩ := ih f u1 a b hu1s ha hb hpos' (by simp at hfuel; omega)
      refine ⟨u, ?_, hus, ?_⟩
      · rw [hstep, hu1']
        simpa using hu
      · intro i j hi hj
        rw [huq i j hi hj, allIdx_snoc_sum ds' d (fun p => get t (i :: j :: p))]
        congr 1
        apply List.map_congr_left
        intro p hp
        have hv : validIdx (i :: j :: p) (a :: b :: ds') = true := by
          simp only [validIdx, Bool.and_eq_true, decide_eq_true_eq]
          exact ⟨hi, hj, allIdx_valid ds' p hp⟩
        have hq := hu1q (i :: j :: p) [] hv rfl
        simp only [List.append_nil] at hq
        rw [hq]
        apply Finset.sum_congr rfl
        intro x _
        simp

theorem sumTrailing_spec (t : Tensor) (a b : ℕ) (ds : List ℕ)
    (h : hasShape t (a :: b :: ds) = true) (ha : 0 < a) (hb : 0 < b)
    (hpos : ∀ d ∈ ds, 0 < d) :
    ∃ u, sumTrailing t = some u ∧ hasShape u [a, b] = true ∧
      ∀ i j, i < a → j < b →
        get u [i, j] = ((allIdx ds).map (fun p => get t (i :: j :: p))).sum := by
  have hsh : shape t = a :: b :: ds := by
    apply shape_eq_of_hasShape h
    intro x hx
    have hx' : x ∈ a :: b :: ds := List.dropLast_subset _ hx
    simp only [List.mem_cons] at hx'
    rcases hx' with rfl | rfl | hx'
    · omega
    · omega
    · exact hpos x hx'
  have hfuel : ds.length ≤ rank t := by
    simp only [rank, hsh, List.length_cons]
    omega
  exact sumTrailingFuel_spec ds (rank t) t a b h ha hb hpos hfuel

theorem foldl_zipadd_spec : ∀ (xs : List Tensor) (acc : Tensor) (s : List ℕ),
    hasShape acc s = true → (∀ x ∈ xs, hasShape x s = true) →
    hasShape (xs.foldl (fun u t => zip (· + ·) u t) acc) s = true ∧
    ∀ p, validIdx p s = true →
      get (xs.foldl (fun u t => zip (· + ·) u t) acc) p =
        get acc p + (xs.map (fun x => get x p)).sum := by
  intro xs
  induction xs with
  | nil =>
    intro acc s hacc _
    exact ⟨hacc, fun p _ => by simp⟩
  | cons x xs ih =>
    intro acc s hacc hxs
    have hx : hasShape x s = true := hxs x (by simp)
    have hxs' : ∀ y ∈ xs, hasShape y s = true := fun y hy => hxs y (by simp [hy])
    have hz : hasShape (zip (· + ·) acc x) s = true := hasShape_zip _ acc x s hacc hx
    obtain ⟨h1, h2⟩ := ih (zip (· + ·) acc x) s hz hxs'
    refine ⟨h1, ?_⟩
    intro p hp
    rw [show (x :: xs).foldl (fun u t => zip (· + ·) u t) acc
      = xs.foldl (fun u t => zip (· + ·) u t) (zip (· + ·) acc x) from rfl]
    rw [h2 p hp, get_zip (· + ·) acc x s p hacc hx hp]
    simp
    ring

theorem pySum_hasShape (l : List Tensor) (s : List ℕ)
    (hne : l ≠ []) (hl : ∀ x ∈ l, hasShape x s = true) :
    hasShape (pySum l) s = true := by
  match l, hne with
  | x :: xs, _ =>
    have hx : hasShape x s = true := hl x (by simp)
    have hm : hasShape (Tensor.map (fun y => 0 + y) x) s = true := by
      rw [hasShape_map]
      exact hx
    have : pySum (x :: xs) = xs.foldl (fun u t => zip (· + ·) u t) (Tensor.map (fun y => 0 + y) x) := by
      rw [show pySum (x :: xs)
        = xs.foldl (fun u t => zip (· + ·) u t) (zip (· + ·) (.sc 0) x) from rfl]
      rw [zip_sc_left]
    rw [this]
    exact (foldl_zipadd_spec xs _ s hm (fun y hy => hl y (by simp [hy]))).1

theorem pySum_get (l : List Tensor) (s : List ℕ) (p : List ℕ)
    (hl : ∀ x ∈ l, hasShape x s = true) (hp : validIdx p s = true) :
    get (pySum l) p = (l.map (fun x => get x p)).sum := by
  match l with
  | [] => simp [pySum, get_sc0]
  | x :: xs =>
    have hx : hasShape x s = true := hl x (by simp)
    have hm : hasShape (Tensor.map (fun y => 0 + y) x) s = true := by
      rw [hasShape_map]; exact hx
    have heq : pySum (x :: xs) = xs.foldl (fun u t => zip (· + ·) u t) (Tensor.map (fun y => 0 + y) x) := by
      rw [show pySum (x :: xs)
        = xs.foldl (fun u t => zip (· + ·) u t) (zip (· + ·) (.sc 0) x) from rfl]
      rw [zip_sc_left]
    rw [heq, (foldl_zipadd_spec xs _ s hm (fun y hy => hl y (by simp [hy]))).2 p hp]
    rw [get_map (fun y => 0 + y) x p (gok_of_hasShape x s p hx hp)]
    simp

end Tensor

theorem List.mapM_option_eq_some_map {α β : Type} (F : α → Option β) (G : α → β) :
    ∀ (l : List α), (∀ x ∈ l, F x = some (G x)) → l.mapM F = some (l.map G) := by
  intro l
  induction l with
  | nil => intro _; rfl
  | cons x xs ih =>
    intro h
    rw [List.mapM_cons, h x (by simp), ih (fun y hy => h y (by simp [hy]))]
    rfl

namespace Tensor

theorem hasShape_nil_inv : ∀ {u : Tensor}, hasShape u [] = true → ∃ q, u = .sc q
  | .sc q, _ => ⟨q, rfl⟩
  | .nil, h => by simp [hasShape] at h
  | .cons _ _, h => by simp [hasShape] at h

theorem validIdx_single {i b : ℕ} (h : i < b) : validIdx [i] [b] = true := by
  simp [validIdx, h]

theorem foldl_zipadd_sc : ∀ (qs : List ℚ) (a : ℚ),
    (qs.map Tensor.sc).foldl (fun u t => zip (· + ·) u t) (.sc a) = .sc (a + qs.sum)
  | [], a => by simp
  | q :: qs, a => by
    rw [List.map_cons, List.foldl_cons, show zip (· + ·) (Tensor.sc a) (Tensor.sc q)
      = Tensor.sc (a + q) from rfl, foldl_zipadd_sc qs (a + q)]
    rw [List.sum_cons]
    ring_nf

theorem pySum_sc (qs : List ℚ) : pySum (qs.map Tensor.sc) = .sc qs.sum := by
  rw [pySum, foldl_zipadd_sc qs 0, zero_add]

theorem sum_swap_list (l : List Tensor) (s : Finset ℕ) (F : Tensor → ℕ → ℚ) :
    ∑ i ∈ s, (l.map (fun x => F x i)).sum = (l.map (fun x => ∑ i ∈ s, F x i)).sum := by
  induction l with
  | nil => simp
  | cons x xs ih =>
    simp only [List.map_cons, List.sum_cons, Finset.sum_add_distrib, ih]

theorem sum_map_div (l : List Tensor) (F : Tensor → ℚ) (c : ℚ) :
    (l.map (fun x => F x / c)).sum = (l.map F).sum / c := by
  induction l with
  | nil => simp
  | cons x xs ih =>
    simp only [List.map_cons, List.sum_cons, ih, add_div]

end Tensor

namespace Lib

theorem Model.cll_base_of_false (ops : MathOps) (m : Model) (obs : Tensor) (c : Tensor)
    (h : Model.conditional_log_likelihoods ops m obs false = some c) :
    Model.cll_base ops m obs = some c := by
  unfold Model.conditional_log_likelihoods at h
  cases hb : Model.cll_base ops m obs with
  | none => rw [hb] at h; simp at h
  | some lp3 =>
    rw [hb] at h
    simp at h
    rw [h]

theorem Model.cll_of_base (ops : MathOps) (m : Model) (obs c : Tensor)
    (h : Model.cll_base ops m obs = some c) (averaged : Bool) :
    Model.conditional_log_likelihoods ops m obs averaged
      = if averaged then Tensor.meanDim 0 c else some c := by
  unfold Model.conditional_log_likelihoods
  rw [h]

theorem Model.kls_base_of_false (m : Model) (ks : List Tensor)
    (h : Model.kl_divergences m false = some ks) :
    Model.kl_divergences_base m = some ks := by
  unfold Model.kl_divergences at h
  cases hb : Model.kl_divergences_base m with
  | none => rw [hb] at h; simp at h
  | some kl =>
    rw [hb] at h
    simp at h
    rw [h]

theorem Model.kls_of_base (m : Model) (ks : List Tensor)
    (h : Model.kl_divergences_base m = some ks) (averaged : Bool) :
    Model.kl_divergences m averaged
      = if averaged then ks.mapM (Tensor.meanDim 0) else some ks := by
  unfold Model.kl_divergences
  rw [h]

end Lib

/-! ## Claims -/

/-- C1: with the model state fixed (the per-level KL functions and the
output head fixed, cached samples reused), `Model.elbo(observation,
averaged, anneal_weight)` equals `conditional_log_likelihoods(observation,
averaged)` minus `anneal_weight` times the (python) sum over levels of
`kl_divergences(averaged)`, exactly — for every observation, every
`anneal_weight` and both values of `averaged`.  The hypotheses say the
unaveraged pieces evaluate successfully to rank-1 per-batch tensors over a
nonempty batch, as produced by the reductions. -/
theorem claim_C1_elbo_decomposition (ops : MathOps) (m : Lib.Model) (obs : Tensor)
    (w : ℚ) (averaged : Bool) (b : ℕ) (c : Tensor) (ks : List Tensor)
    (hc : Lib.Model.conditional_log_likelihoods ops m obs false = some c)
    (hk : Lib.Model.kl_divergences m false = some ks)
    (hcs : Tensor.hasShape c [b] = true)
    (hks : ∀ k ∈ ks, Tensor.hasShape k [b] = true)
    (hb : 0 < b) :
    ∃ c' ks', Lib.Model.conditional_log_likelihoods ops m obs averaged = some c' ∧
      Lib.Model.kl_divergences m averaged = some ks' ∧
      Lib.Model.elbo ops m obs averaged w =
        some (Tensor.zip (· - ·) c' (Tensor.map (fun x => w * x) (Tensor.pySum ks'))) := by
  have hcb := Lib.Model.cll_base_of_false ops m obs c hc
  have hkb := Lib.Model.kls_base_of_false m ks hk
  have helbo : Lib.Model.elbo ops m obs averaged w =
      (if averaged then Tensor.meanDim 0 (Tensor.zip (· - ·) c
        (Tensor.map (fun x => w * x) (Tensor.pySum ks)))
       else some (Tensor.zip (· - ·) c (Tensor.map (fun x => w * x) (Tensor.pySum ks)))) := by
    unfold Lib.Model.elbo
    rw [hc, hk]
  cases averaged with
  | false => exact ⟨c, ks, hc, hk, by rw [helbo]; simp⟩
  | true =>
    obtain ⟨u, hu, hus, huq⟩ := Tensor.meanDim0_spec c b [] hcs hb
    obtain ⟨cbar, rfl⟩ := Tensor.hasShape_nil_inv hus
    have hcbar : cbar = (∑ j ∈ Finset.range b, Tensor.get c [j]) / b := by
      have h0 := huq [] rfl
      simpa [Tensor.get] using h0
    have hcll : Lib.Model.conditional_log_likelihoods ops m obs true = some (.sc cbar) := by
      have h1 := Lib.Model.cll_of_base ops m obs c hcb true
      simp only [if_true] at h1
      rw [h1]
      exact hu
    have hklmap : ∀ k ∈ ks, Tensor.meanDim 0 k
        = some (Tensor.sc ((∑ j ∈ Finset.range b, Tensor.get k [j]) / b)) := by
      intro k hkmem
      obtain ⟨uk, huk, huks, hukq⟩ := Tensor.meanDim0_spec k b [] (hks k hkmem) hb
      obtain ⟨kbar, rfl⟩ := Tensor.hasShape_nil_inv huks
      have h0 := hukq [] rfl
      simp only [Tensor.get] at h0
      rw [show Tensor.meanDim 0 k = Tensor.meanDim0 k from rfl, huk, h0]
    have hkls : Lib.Model.kl_divergences m true
        = some (ks.map (fun k => Tensor.sc ((∑ j ∈ Finset.range b, Tensor.get k [j]) / b))) := by
      have h1 := Lib.Model.kls_of_base m ks hkb true
      simp only [if_true] at h1
      rw [h1]
      exact List.mapM_option_eq_some_map (Tensor.meanDim 0) _ ks hklmap
    refine ⟨.sc cbar,
      ks.map (fun k => Tensor.sc ((∑ j ∈ Finset.range b, Tensor.get k [j]) / b)),
      hcll, hkls, ?_⟩
    rw [helbo]
    simp only [if_true]
    have hrhs : Tensor.zip (· - ·) (.sc cbar)
        (Tensor.map (fun x => w * x)
          (Tensor.pySum (ks.map (fun k => Tensor.sc ((∑ j ∈ Finset.range b, Tensor.get k [j]) / b)))))
        = Tensor.sc (cbar - w * ((ks.map (fun k => ∑ j ∈ Finset.range b, Tensor.get k [j])).sum / b)) := by
      rw [show ks.map (fun k => Tensor.sc ((∑ j ∈ Finset.range b, Tensor.get k [j]) / b))
          = (ks.map (fun k => (∑ j ∈ Finset.range b, Tensor.get k [j]) / b)).map Tensor.sc from by
        rw [List.map_map]; rfl]
      rw [Tensor.pySum_sc,
        Tensor.sum_map_div ks (fun k => ∑ j ∈ Finset.range b, Tensor.get k [j]) b]
      rfl
    rw [hrhs]
    cases ks with
    | nil =>
      have he : Tensor.zip (· - ·) c (Tensor.map (fun x => w * x) (Tensor.pySum []))
          = Tensor.map (fun x => x - w * 0) c := by
        rw [show Tensor.map (fun x => w * x) (Tensor.pySum []) = Tensor.sc (w * 0) from rfl]
        rw [Tensor.zip_sc_right]
      rw [he]
      have hesh : Tensor.hasShape (Tensor.map (fun x => x - w * 0) c) [b] = true := by
        rw [Tensor.hasShape_map]
        exact hcs
      obtain ⟨ue, hue, hues, hueq⟩ := Tensor.meanDim0_spec _ b [] hesh hb
      obtain ⟨ebar, rfl⟩ := Tensor.hasShape_nil_inv hues
      have hebar := hueq [] rfl
      simp only [Tensor.get] at hebar
      rw [show Tensor.meanDim 0 (Tensor.map (fun x => x - w * 0) c)
        = Tensor.meanDim0 (Tensor.map (fun x => x - w * 0) c) from rfl, hue]
      have : ebar = cbar - w * (([] : List Tensor).map
          (fun k => ∑ j ∈ Finset.range b, Tensor.get k [j])).sum / b := by
        rw [hebar, hcbar]
        have : ∀ j ∈ Finset.range b, Tensor.get (Tensor.map (fun x => x - w * 0) c) [j]
            = Tensor.get c [j] := by
          intro j hj
          rw [Tensor.get_map (fun x => x - w * 0) c [j]
            (Tensor.gok_of_hasShape c [b] [j] hcs (Tensor.validIdx_single (Finset.mem_range.mp hj)))]
          ring
        rw [Finset.sum_congr rfl this]
        simp
      rw [this]
      simp
    | cons k0 ktail =>
      have hne : (k0 :: ktail : List Tensor) ≠ [] := by simp
      have hpys : Tensor.hasShape (Tensor.pySum (k0 :: ktail)) [b] = true :=
        Tensor.pySum_hasShape (k0 :: ktail) [b] hne hks
      have hX : Tensor.hasShape
          (Tensor.map (fun x => w * x) (Tensor.pySum (k0 :: ktail))) [b] = true := by
        rw [Tensor.hasShape_map]
        exact hpys
      have hesh := Tensor.hasShape_zip (· - ·) c _ [b] hcs hX
      obtain ⟨ue, hue, hues, hueq⟩ := Tensor.meanDim0_spec _ b [] hesh hb
      obtain ⟨ebar, rfl⟩ := Tensor.hasShape_nil_inv hues
      have hebar := hueq [] rfl
      simp only [Tensor.get] at hebar
      rw [show Tensor.meanDim 0 (Tensor.zip (· - ·) c
          (Tensor.map (fun x => w * x) (Tensor.pySum (k0 :: ktail))))
        = Tensor.meanDim0 (Tensor.zip (· - ·) c
          (Tensor.map (fun x => w * x) (Tensor.pySum (k0 :: ktail)))) from rfl, hue]
      have hterm : ∀ j ∈ Finset.range b,
          Tensor.get (Tensor.zip (· - ·) c
            (Tensor.map (fun x => w * x) (Tensor.pySum (k0 :: ktail)))) [j]
          = Tensor.get c [j]
            - w * ((k0 :: ktail).map (fun k => Tensor.get k [j])).sum := by
        intro j hj
        have hvj := Tensor.validIdx_single (Finset.mem_range.mp hj)
        rw [Tensor.get_zip (· - ·) c _ [b] [j] hcs hX hvj]
        rw [Tensor.get_map (fun x => w * x) _ [j]
          (Tensor.gok_of_hasShape _ [b] [j] hpys hvj)]
        rw [Tensor.pySum_get (k0 :: ktail) [b] [j] hks hvj]
      have : ebar = cbar - w * (((k0 :: ktail).map
          (fun k => ∑ j ∈ Finset.range b, Tensor.get k [j])).sum / b) := by
        rw [hebar, Finset.sum_congr rfl hterm, Finset.sum_sub_distrib, ← Finset.mul_sum,
          Tensor.sum_swap_list (k0 :: ktail) (Finset.range b) (fun k j => Tensor.get k [j]),
          hcbar, sub_div, mul_div_assoc]
      rw [this]

/-- Witness for C1 at a concrete single-level model, `averaged = true`,
`anneal_weight = 1/2`. -/
theorem claim_C1_elbo_decomposition_witness :
    ∃ c' ks', Lib.Model.conditional_log_likelihoods Lib.opsId Lib.mC1 Lib.obsC1 true = some c' ∧
      Lib.Model.kl_divergences Lib.mC1 true = some ks' ∧
      Lib.Model.elbo Lib.opsId Lib.mC1 Lib.obsC1 true (1 / 2) =
        some (Tensor.zip (· - ·) c' (Tensor.map (fun x => (1 / 2 : ℚ) * x) (Tensor.pySum ks'))) :=
  claim_C1_elbo_decomposition Lib.opsId Lib.mC1 Lib.obsC1 (1 / 2) true 1
    (Tensor.ofList [5]) [Tensor.ofList [3]]
    (by norm_num [Lib.Model.conditional_log_likelihoods, Lib.Model.cll_base,
      Lib.OutDist.log_prob, Tensor.sumTrailing, Tensor.sumTrailingFuel, Tensor.sumDim,
      Tensor.sumDim0, Tensor.inSlices, Tensor.meanDim, Tensor.meanDim0, Tensor.rank,
      Tensor.shape, Tensor.len, Tensor.zip, Tensor.map, Tensor.ofList, Tensor.ofSlices,
      Tensor.unsqueeze1, Lib.mC1, Lib.obsC1, Lib.opsId])
    (by norm_num [Lib.Model.kl_divergences, Lib.Model.kl_divergences_base, Lib.Model.klLevel,
      Tensor.sumDim, Tensor.sumDim0, Tensor.inSlices, Tensor.meanDim, Tensor.meanDim0,
      Tensor.rank, Tensor.shape, Tensor.len, Tensor.zip, Tensor.map, Tensor.ofList,
      Tensor.ofSlices, List.range, List.range.loop, List.foldlM, List.mapM, List.mapM.loop,
      List.range', Lib.mC1])
    (by decide)
    (by decide)
    (by decide)

/-- C6: once a sample is cached, every call to `Normal.sample` with
`resample` left false returns the identical cached tensor, mutates no
distribution state, and ignores its `n_samples` and noise arguments. -/
theorem claim_C6_cached_sample (ops : MathOps) (d : Lib.Normal) (noise : Tensor)
    (n_samples : ℕ) (s : Tensor) (hcache : d._sample = some s) :
    Lib.Normal.sample ops d noise n_samples false = .ok (s, d) := by
  unfold Lib.Normal.sample
  rw [hcache]
  rfl

/-- Witness for C6: a concrete state with a cached sample. -/
theorem claim_C6_cached_sample_witness :
    Lib.Normal.sample Lib.opsId
      { mean_reset_value := Tensor.ofList [0]
        log_var_reset_value := Tensor.ofList [0]
        mean := some (Tensor.ofList [1, 2])
        log_var := some (Tensor.ofList [0, 0])
        _sample := some (Tensor.ofList [7, 8]) }
      (Tensor.ofList [9, 9]) 5 false
      = .ok (Tensor.ofList [7, 8],
        { mean_reset_value := Tensor.ofList [0]
          log_var_reset_value := Tensor.ofList [0]
          mean := some (Tensor.ofList [1, 2])
          log_var := some (Tensor.ofList [0, 0])
          _sample := some (Tensor.ofList [7, 8]) }) :=
  claim_C6_cached_sample Lib.opsId _ (Tensor.ofList [9, 9]) 5 (Tensor.ofList [7, 8]) rfl

/-- C9: on a `Normal` whose `mean` or `log_var` is unset, `sample()` (with
the default arguments) and `log_prob` on a non-tuple value — a tensor or
`None` — fail with an error (`Except.error`) before producing any result.
The first hypothesis is the state invariant maintained by every operation
of the class: a cached sample only exists once both parameters are set. -/
theorem claim_C9_unset_state_errors (ops : MathOps) (d : Lib.Normal) (noise v : Tensor)
    (hinv : d._sample.isSome = true → d.mean.isSome = true ∧ d.log_var.isSome = true)
    (hunset : d.mean = none ∨ d.log_var = none) :
    (∃ e, Lib.Normal.sample ops d noise 1 false = .error e) ∧
    (∃ e, Lib.Normal.log_prob ops d noise .pynone = .error e) ∧
    (∃ e, Lib.Normal.log_prob ops d noise (.tensor v) = .error e) := by
  have hcache : d._sample = none := by
    cases hs : d._sample with
    | none => rfl
    | some s =>
      have := hinv (by simp [hs])
      rcases hunset with h | h <;> simp [h] at this
  have hsample : ∃ e, Lib.Normal.sample ops d noise 1 false = .error e := by
    unfold Lib.Normal.sample
    rw [hcache]
    cases hlv : d.log_var with
    | none => exact ⟨_, rfl⟩
    | some lv =>
      cases hm : d.mean with
      | none => exact ⟨_, rfl⟩
      | some mn =>
        rcases hunset with h | h
        · rw [hm] at h
          simp at h
        · rw [hlv] at h
          simp at h
  refine ⟨hsample, ?_, ?_⟩
  · unfold Lib.Normal.log_prob
    obtain ⟨e, he⟩ := hsample
    rw [he]
    exact ⟨e, rfl⟩
  · unfold Lib.Normal.log_prob Lib.Normal.log_prob_eval
    rcases hunset with h | h
    · rw [h]
      cases d.log_var <;> exact ⟨_, rfl⟩
    · rw [h]
      cases d.mean <;> exact ⟨_, rfl⟩

/-- Witness for C9: the freshly constructed `Normal(mean=None,
log_var=None)` state. -/
theorem claim_C9_unset_state_errors_witness :
    (∃ e, Lib.Normal.sample Lib.opsId (Lib.Normal.init 2) (Tensor.ofList [1, 1]) 1 false
      = .error e) ∧
    (∃ e, Lib.Normal.log_prob Lib.opsId (Lib.Normal.init 2) (Tensor.ofList [1, 1]) .pynone
      = .error e) ∧
    (∃ e, Lib.Normal.log_prob Lib.opsId (Lib.Normal.init 2) (Tensor.ofList [1, 1])
      (.tensor (Tensor.ofList [1, 1])) = .error e) :=
  claim_C9_unset_state_errors Lib.opsId (Lib.Normal.init 2) (Tensor.ofList [1, 1])
    (Tensor.ofList [1, 1]) (by decide) (by decide)

/-- Counterexample to C5 as stated: for rank-4 parameters (a convolutional
level, mean of shape `[1, 1, 1, 1]` lacking a sample dimension),
`sample(n_samples = 2, resample = True)` returns a tensor that still has
shape `[1, 1, 1, 1]` — no sample dimension of size 2 is inserted at axis 1
(the code only broadcasts when `len(self.mean.size()) == 2`), while the
claim's broadcast would give shape `[1, 2, 1, 1, 1]`. -/
theorem claim_C5_counterexample :
    (Lib.Normal.sample Lib.opsId
      { mean_reset_value := Tensor.ofList [0]
        log_var_reset_value := Tensor.ofList [0]
        mean := some (Tensor.ofSlices [Tensor.ofSlices [Tensor.ofSlices [Tensor.ofList [0]]]])
        log_var := some (Tensor.ofSlices [Tensor.ofSlices [Tensor.ofSlices [Tensor.ofList [0]]]])
        _sample := none }
      (Tensor.ofSlices [Tensor.ofSlices [Tensor.ofSlices [Tensor.ofList [1]]]]) 2 true).map
        (fun p => Tensor.shape p.1)
      = Except.ok [1, 1, 1, 1] ∧ ([1, 1, 1, 1] : List ℕ) ≠ [1, 2, 1, 1, 1] := by
  constructor
  · norm_num [Lib.Normal.sample, Tensor.rank, Tensor.shape, Tensor.len, Tensor.zip, Tensor.map,
      Tensor.expandSample, Tensor.repl, Tensor.ofList, Tensor.ofSlices, Lib.opsId, Except.map]
  · decide

/-- C5 amended: `sample(n_samples, resample=True)` reparameterizes
`mean + noise * std` with `std = exp(0.5 * log_var)` and caches the result;
the sample dimension of size `n_samples` is inserted at axis 1 (with both
parameters broadcast across it) exactly when the parameters have rank 2 —
parameters of any other rank are combined with the noise at their own
shape, with no sample dimension inserted. -/
theorem claim_C5_sample_reparameterization :
    (∀ (ops : MathOps) (d : Lib.Normal) (mean log_var noise : Tensor) (n b k : ℕ),
      d.mean = some mean → d.log_var = some log_var →
      Tensor.hasShape mean [b, k] = true → Tensor.hasShape log_var [b, k] = true →
      Tensor.hasShape noise [b, n, k] = true → 0 < b →
      ∃ s, Lib.Normal.sample ops d noise n true = .ok (s, { d with _sample := some s }) ∧
        Tensor.hasShape s [b, n, k] = true ∧
        ∀ i j l, i < b → j < n → l < k →
          Tensor.get s [i, j, l]
            = Tensor.get mean [i, l]
              + Tensor.get noise [i, j, l] * ops.exp ((1 / 2) * Tensor.get log_var [i, l])) ∧
    (∀ (ops : MathOps) (d : Lib.Normal) (mean log_var noise : Tensor) (n : ℕ) (sh p : List ℕ),
      d.mean = some mean → d.log_var = some log_var → Tensor.rank mean ≠ 2 →
      Tensor.hasShape mean sh = true → Tensor.hasShape log_var sh = true →
      Tensor.hasShape noise sh = true → Tensor.validIdx p sh = true →
      ∃ s, Lib.Normal.sample ops d noise n true = .ok (s, { d with _sample := some s }) ∧
        Tensor.hasShape s sh = true ∧
        Tensor.get s p
          = Tensor.get mean p + Tensor.get noise p * ops.exp ((1 / 2) * Tensor.get log_var p)) := by
  constructor
  · intro ops d mean log_var noise n b k hm hlv hms hlvs hns hb
    have hrank2 : Tensor.rank mean = 2 :=
      Tensor.rank_eq_of_hasShape hms (by intro x hx; simp [List.dropLast] at hx; omega)
    have hstds : Tensor.hasShape (Tensor.map ops.exp
        (Tensor.map (fun x => x * (1 / 2)) log_var)) [b, k] = true := by
      rw [Tensor.hasShape_map, Tensor.hasShape_map]
      exact hlvs
    have hstde := Tensor.hasShape_expandSample n _ b [k] hstds
    have hmeane := Tensor.hasShape_expandSample n mean b [k] hms
    have hprod := Tensor.hasShape_zip (· * ·) noise _ [b, n, k] hns hstde
    have hsum := Tensor.hasShape_zip (· + ·) _ _ [b, n, k] hprod hmeane
    refine ⟨_, ?_, hsum, ?_⟩
    · unfold Lib.Normal.sample
      rw [hm, hlv]
      simp only [Option.isNone_none, Bool.or_true, if_true, hrank2, if_pos]
    · intro i j l hi hj hl
      have hv : Tensor.validIdx [i, j, l] [b, n, k] = true := by
        simp [Tensor.validIdx]
        omega
      have hv2 : Tensor.validIdx [i, l] [b, k] = true := by
        simp [Tensor.validIdx]
        omega
      rw [Tensor.get_zip (· + ·) _ _ [b, n, k] [i, j, l] hprod hmeane hv]
      rw [Tensor.get_zip (· * ·) noise _ [b, n, k] [i, j, l] hns hstde hv]
      rw [Tensor.get_expandSample n _ i j [l] hj, Tensor.get_expandSample n mean i j [l] hj]
      rw [Tensor.get_map ops.exp _ [i, l]
        (by rw [show Tensor.gok (Tensor.map (fun x => x * (1 / 2)) log_var) [i, l]
            = true ↔ True from ?_]
            · trivial
            · constructor
              · intro _; trivial
              · intro _
                exact Tensor.gok_of_hasShape _ [b, k] [i, l]
                  (by rw [Tensor.hasShape_map]; exact hlvs) hv2)]
      rw [Tensor.get_map (fun x => x * (1 / 2)) log_var [i, l]
        (Tensor.gok_of_hasShape log_var [b, k] [i, l] hlvs hv2)]
      rw [mul_comm (Tensor.get log_var [i, l]) ((1 : ℚ) / 2)]
      ring
  · intro ops d mean log_var noise n sh p hm hlv hrank hms hlvs hns hp
    have hstds : Tensor.hasShape (Tensor.map ops.exp
        (Tensor.map (fun x => x * (1 / 2)) log_var)) sh = true := by
      rw [Tensor.hasShape_map, Tensor.hasShape_map]
      exact hlvs
    have hprod := Tensor.hasShape_zip (· * ·) noise _ sh hns hstds
    have hsum := Tensor.hasShape_zip (· + ·) _ mean sh hprod hms
    refine ⟨_, ?_, hsum, ?_⟩
    · unfold Lib.Normal.sample
      rw [hm, hlv]
      simp only [Option.isNone_none, Bool.or_true, if_true, if_neg hrank]
    · rw [Tensor.get_zip (· + ·) _ mean sh p hprod hms hp]
      rw [Tensor.get_zip (· * ·) noise _ sh p hns hstds hp]
      rw [Tensor.get_map ops.exp _ p
        (Tensor.gok_of_hasShape _ sh p (by rw [Tensor.hasShape_map]; exact hlvs) hp)]
      rw [Tensor.get_map (fun x => x * (1 / 2)) log_var p
        (Tensor.gok_of_hasShape log_var sh p hlvs hp)]
      rw [mul_comm (Tensor.get log_var p) ((1 : ℚ) / 2)]
      ring

/-- Witness for the amended C5: a rank-2 parameter state (sample dimension
inserted) and a rank-4 parameter state (no insertion), at concrete inputs. -/
theorem claim_C5_sample_reparameterization_witness :
    (∃ s, Lib.Normal.sample Lib.opsId
        { mean_reset_value := Tensor.ofList [0]
          log_var_reset_value := Tensor.ofList [0]
          mean := some (Tensor.ofSlices [Tensor.ofList [3]])
          log_var := some (Tensor.ofSlices [Tensor.ofList [0]])
          _sample := none }
        (Tensor.ofSlices [Tensor.ofSlices [Tensor.ofList [1], Tensor.ofList [2]]]) 2 true
        = .ok (s, { mean_reset_value := Tensor.ofList [0]
                    log_var_reset_value := Tensor.ofList [0]
                    mean := some (Tensor.ofSlices [Tensor.ofList [3]])
                    log_var := some (Tensor.ofSlices [Tensor.ofList [0]])
                    _sample := some s }) ∧
      Tensor.hasShape s [1, 2, 1] = true ∧
      ∀ i j l, i < 1 → j < 2 → l < 1 →
        Tensor.get s [i, j, l]
          = Tensor.get (Tensor.ofSlices [Tensor.ofList [3]]) [i, l]
            + Tensor.get (Tensor.ofSlices [Tensor.ofSlices [Tensor.ofList [1], Tensor.ofList [2]]])
                [i, j, l]
              * Lib.opsId.exp ((1 / 2)
                  * Tensor.get (Tensor.ofSlices [Tensor.ofList [0]]) [i, l])) ∧
    (∃ s, Lib.Normal.sample Lib.opsId
        { mean_reset_value := Tensor.ofList [0]
          log_var_reset_value := Tensor.ofList [0]
          mean := some (Tensor.ofSlices [Tensor.ofSlices [Tensor.ofSlices [Tensor.ofList [4]]]])
          log_var := some (Tensor.ofSlices [Tensor.ofSlices [Tensor.ofSlices [Tensor.ofList [0]]]])
          _sample := none }
        (Tensor.ofSlices [Tensor.ofSlices [Tensor.ofSlices [Tensor.ofList [1]]]]) 2 true
        = .ok (s, { mean_reset_value := Tensor.ofList [0]
                    log_var_reset_value := Tensor.ofList [0]
                    mean := some (Tensor.ofSlices [Tensor.ofSlices [Tensor.ofSlices
                      [Tensor.ofList [4]]]])
                    log_var := some (Tensor.ofSlices [Tensor.ofSlices [Tensor.ofSlices
                      [Tensor.ofList [0]]]])
                    _sample := some s }) ∧
      Tensor.hasShape s [1, 1, 1, 1] = true ∧
      Tensor.get s [0, 0, 0, 0]
        = Tensor.get (Tensor.ofSlices [Tensor.ofSlices [Tensor.ofSlices [Tensor.ofList [4]]]])
            [0, 0, 0, 0]
          + Tensor.get (Tensor.ofSlices [Tensor.ofSlices [Tensor.ofSlices [Tensor.ofList [1]]]])
              [0, 0, 0, 0]
            * Lib.opsId.exp ((1 / 2)
                * Tensor.get (Tensor.ofSlices [Tensor.ofSlices [Tensor.ofSlices
                    [Tensor.ofList [0]]]]) [0, 0, 0, 0])) :=
  ⟨claim_C5_sample_reparameterization.1 Lib.opsId _ _ _ _ 2 1 1 rfl rfl
      (by decide) (by decide) (by decide) (by decide),
    claim_C5_sample_reparameterization.2 Lib.opsId _ _ _ _ 2 [1, 1, 1, 1] [0, 0, 0, 0] rfl rfl
      (by decide) (by decide) (by decide) (by decide) (by decide)⟩

namespace Tensor

theorem replFlat_cons_nil (b : ℕ) (x : Tensor) :
    replFlat b (.cons x .nil) = repl b x := by
  induction b with
  | zero => rfl
  | succ m ih => simp [replFlat, repl, Tensor.append, ih]

end Tensor

namespace Lib

theorem repeat2_slice1 (bs : ℕ) (x l : Tensor) (h : Tensor.rank (Tensor.cons x l) ≤ 2) :
    Tensor.repeat2 bs (Tensor.slice1 (Tensor.cons x l))
      = .ok (firstRowBroadcast bs (Tensor.cons x l)) := by
  cases x with
  | sc q => rfl
  | nil =>
    show Tensor.repeat2 bs (.cons .nil .nil) = .ok (Tensor.repl bs .nil)
    rw [show Tensor.repeat2 bs (.cons .nil .nil)
      = .ok (Tensor.replFlat bs (.cons .nil .nil)) from rfl]
    rw [Tensor.replFlat_cons_nil]
  | cons y m =>
    cases y with
    | sc q =>
      show Tensor.repeat2 bs (.cons (.cons (.sc q) m) .nil)
        = .ok (Tensor.repl bs (.cons (.sc q) m))
      rw [show Tensor.repeat2 bs (.cons (.cons (.sc q) m) .nil)
        = .ok (Tensor.replFlat bs (.cons (.cons (.sc q) m) .nil)) from rfl]
      rw [Tensor.replFlat_cons_nil]
    | nil => simp [Tensor.rank, Tensor.shape] at h
    | cons z w => simp [Tensor.rank, Tensor.shape] at h

theorem reinit_scrut (bs : ℕ) (x l : Tensor) (hrank : Tensor.rank (Tensor.cons x l) ≤ 2) :
    (if Tensor.len (Tensor.cons x l) ≠ bs
      then Tensor.repeat2 bs (Tensor.slice1 (Tensor.cons x l))
      else Except.ok (Tensor.cons x l))
      = Except.ok (if Tensor.dim0 (Tensor.cons x l) = some bs then Tensor.cons x l
        else firstRowBroadcast bs (Tensor.cons x l)) := by
  by_cases hbs : Tensor.len (Tensor.cons x l) = bs
  · rw [if_neg (by simpa using hbs),
      if_pos (show Tensor.dim0 (Tensor.cons x l) = some bs by
        rw [show Tensor.dim0 (Tensor.cons x l)
          = some (Tensor.len (Tensor.cons x l)) from rfl, hbs])]
  · rw [if_pos hbs, repeat2_slice1 bs x l hrank,
      if_neg (show ¬Tensor.dim0 (Tensor.cons x l) = some bs by
        rw [show Tensor.dim0 (Tensor.cons x l)
          = some (Tensor.len (Tensor.cons x l)) from rfl]
        simpa using hbs)]

theorem Normal.re_init_mean_ok (d : Normal) (mv : Option Tensor) (bs : ℕ) (sd : Bool)
    (hok : match mv with
      | none => Tensor.rank d.mean_reset_value ≤ 1
      | some v => (∃ x l, v = Tensor.cons x l) ∧ Tensor.rank v ≤ 2) :
    Normal.re_init_mean d mv bs sd
      = .ok { d with mean := some (reinitParam d.mean_reset_value mv bs sd),
                     _sample := none } := by
  obtain ⟨x, l, hv, hrank⟩ : ∃ x l,
      (match mv with
        | some v => v
        | none => Tensor.unsqueeze0 d.mean_reset_value) = Tensor.cons x l ∧
      Tensor.rank (match mv with
        | some v => v
        | none => Tensor.unsqueeze0 d.mean_reset_value) ≤ 2 := by
    cases mv with
    | none =>
      refine ⟨d.mean_reset_value, .nil, rfl, ?_⟩
      simp only [Tensor.rank, Tensor.unsqueeze0, Tensor.shape, Tensor.len, List.length_cons]
      simp only [Tensor.rank] at hok
      omega
    | some v =>
      obtain ⟨⟨x, l, hxl⟩, hr⟩ := hok
      exact ⟨x, l, hxl, hr⟩
  unfold Normal.re_init_mean reinitParam
  cases mv with
  | none =>
    simp only at hv hrank
    rw [hv] at hrank
    simp only [Option.getD_none]
    rw [hv]
    show (match (if Tensor.len (Tensor.cons x l) ≠ bs
        then Tensor.repeat2 bs (Tensor.slice1 (Tensor.cons x l))
        else Except.ok (Tensor.cons x l)) with
      | .error e => Except.error e
      | .ok mean1 =>
        Except.ok { d with mean := some (if sd = true then Tensor.unsqueeze1 mean1 else mean1),
                           _sample := none })
      = _
    rw [reinit_scrut bs x l hrank]
  | some v =>
    simp only at hv hrank
    rw [hv] at hrank
    simp only [Option.getD_some]
    rw [hv]
    show (match (if Tensor.len (Tensor.cons x l) ≠ bs
        then Tensor.repeat2 bs (Tensor.slice1 (Tensor.cons x l))
        else Except.ok (Tensor.cons x l)) with
      | .error e => Except.error e
      | .ok mean1 =>
        Except.ok { d with mean := some (if sd = true then Tensor.unsqueeze1 mean1 else mean1),
                           _sample := none })
      = _
    rw [reinit_scrut bs x l hrank]

theorem Normal.re_init_log_var_ok (d : Normal) (lvv : Option Tensor) (bs : ℕ) (sd : Bool)
    (hok : match lvv with
      | none => Tensor.rank d.log_var_reset_value ≤ 1
      | some v => (∃ x l, v = Tensor.cons x l) ∧ Tensor.rank v ≤ 2) :
    Normal.re_init_log_var d lvv bs sd
      = .ok { d with log_var := some (reinitParam d.log_var_reset_value lvv bs sd),
                     _sample := none } := by
  obtain ⟨x, l, hv, hrank⟩ : ∃ x l,
      (match lvv with
        | some v => v
        | none => Tensor.unsqueeze0 d.log_var_reset_value) = Tensor.cons x l ∧
      Tensor.rank (match lvv with
        | some v => v
        | none => Tensor.unsqueeze0 d.log_var_reset_value) ≤ 2 := by
    cases lvv with
    | none =>
      refine ⟨d.log_var_reset_value, .nil, rfl, ?_⟩
      simp only [Tensor.rank, Tensor.unsqueeze0, Tensor.shape, Tensor.len, List.length_cons]
      simp only [Tensor.rank] at hok
      omega
    | some v =>
      obtain ⟨⟨x, l, hxl⟩, hr⟩ := hok
      exact ⟨x, l, hxl, hr⟩
  unfold Normal.re_init_log_var reinitParam
  cases lvv with
  | none =>
    simp only at hv hrank
    rw [hv] at hrank
    simp only [Option.getD_none]
    rw [hv]
    show (match (if Tensor.len (Tensor.cons x l) ≠ bs
        then Tensor.repeat2 bs (Tensor.slice1 (Tensor.cons x l))
        else Except.ok (Tensor.cons x l)) with
      | .error e => Except.error e
      | .ok lv1 =>
        Except.ok { d with log_var := some (if sd = true then Tensor.unsqueeze1 lv1 else lv1),
                           _sample := none })
      = _
    rw [reinit_scrut bs x l hrank]
  | some v =>
    simp only at hv hrank
    rw [hv] at hrank
    simp only [Option.getD_some]
    rw [hv]
    show (match (if Tensor.len (Tensor.cons x l) ≠ bs
        then Tensor.repeat2 bs (Tensor.slice1 (Tensor.cons x l))
        else Except.ok (Tensor.cons x l)) with
      | .error e => Except.error e
      | .ok lv1 =>
        Except.ok { d with log_var := some (if sd = true then Tensor.unsqueeze1 lv1 else lv1),
                           _sample := none })
      = _
    rw [reinit_scrut bs x l hrank]

end Lib

/-- Counterexample to C7 as stated: an explicit mean value of rank 3 with
leading dimension 2, against `batch_size = 1`, makes `re_init` raise (the
mismatch triggers `mean[:1].repeat(batch_size, 1)`, and torch's `repeat`
rejects a repeat argument with fewer dimensions than the tensor), so the
call fails and the cached sample is NOT invalidated — against the claim
that the cached sample is set to `None` for all argument combinations. -/
theorem claim_C7_counterexample :
    Lib.Normal.re_init
      { mean_reset_value := Tensor.ofList [0]
        log_var_reset_value := Tensor.ofList [0]
        mean := none
        log_var := none
        _sample := some (Tensor.sc 7) }
      (some (Tensor.ofSlices [Tensor.ofSlices [Tensor.ofList [1]],
        Tensor.ofSlices [Tensor.ofList [2]]]))
      none 1 false
      = .error "RuntimeError: number of dims of repeat can not be smaller than number of dims of tensor" := rfl

/-- C7 amended: for every value that torch's `repeat(batch_size, 1)`
accepts — `None`, or an explicit nonempty value of rank at most 2 (with the
learnable zero-state of rank at most 1, as constructed) — `re_init` commits
both parameters to the given value or the zero-state, broadcast along axis
0 to `batch_size` when the leading dimension differs, with a sample axis
inserted at axis 1 when `sample_dim`, and invalidates the cached sample;
an explicit value of rank 3 or more whose leading dimension differs from
`batch_size` instead raises, leaving the state unchanged
(see the counterexample). -/
theorem claim_C7_re_init (d : Lib.Normal) (mv lvv : Option Tensor) (bs : ℕ) (sd : Bool)
    (hmv : match mv with
      | none => Tensor.rank d.mean_reset_value ≤ 1
      | some v => (∃ x l, v = Tensor.cons x l) ∧ Tensor.rank v ≤ 2)
    (hlvv : match lvv with
      | none => Tensor.rank d.log_var_reset_value ≤ 1
      | some v => (∃ x l, v = Tensor.cons x l) ∧ Tensor.rank v ≤ 2) :
    Lib.Normal.re_init d mv lvv bs sd
      = .ok { d with mean := some (Lib.reinitParam d.mean_reset_value mv bs sd),
                     log_var := some (Lib.reinitParam d.log_var_reset_value lvv bs sd),
                     _sample := none } := by
  have h2 := Lib.Normal.re_init_log_var_ok
    { d with mean := some (Lib.reinitParam d.mean_reset_value mv bs sd),
             _sample := none }
    lvv bs sd hlvv
  unfold Lib.Normal.re_init
  rw [Lib.Normal.re_init_mean_ok d mv bs sd hmv]
  exact h2

/-- Witness for the amended C7: a rank-2 explicit mean broadcast from batch
1 to batch 3, the zero-state log variance, a sample axis requested, and a
stale cached sample that gets invalidated. -/
theorem claim_C7_re_init_witness :
    Lib.Normal.re_init
      { mean_reset_value := Tensor.ofList [0]
        log_var_reset_value := Tensor.ofList [0]
        mean := none
        log_var := none
        _sample := some (Tensor.sc 7) }
      (some (Tensor.ofSlices [Tensor.ofList [1, 2]])) none 3 true
      = .ok { mean_reset_value := Tensor.ofList [0]
              log_var_reset_value := Tensor.ofList [0]
              mean := some (Lib.reinitParam (Tensor.ofList [0])
                (some (Tensor.ofSlices [Tensor.ofList [1, 2]])) 3 true)
              log_var := some (Lib.reinitParam (Tensor.ofList [0]) none 3 true)
              _sample := none } :=
  claim_C7_re_init
    { mean_reset_value := Tensor.ofList [0]
      log_var_reset_value := Tensor.ofList [0]
      mean := none
      log_var := none
      _sample := some (Tensor.sc 7) }
    (some (Tensor.ofSlices [Tensor.ofList [1, 2]])) none 3 true
    ⟨⟨Tensor.ofList [1, 2], Tensor.nil, rfl⟩, by decide⟩ (by decide)

/-- C2, evaluated at the failing input and beside the intended semantics.
A single-level model whose KL tensor has shape `[1, 1, 2, 2]` (two feature
dimensions, entries 1..4): `kl_divergences` errors (the loop `for dim in
range(2, len(level_kl.data.shape)): level_kl = level_kl.sum(dim)` fixes the
range from the original rank while each keepdim=False sum shrinks the
tensor, so `sum(3)` is applied to a rank-3 tensor — dimension out of
range), whereas summing all feature dimensions (the semantics the claim
and the comment `# sum over data dimensions` describe, and which the
`while`-loop in `conditional_log_likelihoods` implements) gives `[10]`.
On rank-3 KL tensors the method does behave as claimed: the third conjunct
shows a two-level model where the bottom level is evaluated with
`analytical = False`, the top with `analytical = True`, in bottom-to-top
order (`sc 99`, a poisoned value, is returned for the flag the claim says
is not requested). -/
theorem claim_C2_kl_divergences_loop_bug :
    Lib.Model.kl_divergences
        { levelKLs := [fun _ => Tensor.ofSlices [Tensor.ofSlices [Tensor.ofSlices
            [Tensor.ofList [1, 2], Tensor.ofList [3, 4]]]]]
          output_dist := { cdf := fun t => t, density := fun t => t }
          output_interval := none } false = none
    ∧ (Tensor.sumTrailing (Tensor.ofSlices [Tensor.ofSlices [Tensor.ofSlices
          [Tensor.ofList [1, 2], Tensor.ofList [3, 4]]]])).bind (Tensor.meanDim 1)
        = some (Tensor.ofList [10])
    ∧ Lib.Model.kl_divergences
        { levelKLs := [fun a => if a then Tensor.sc 99
              else Tensor.ofSlices [Tensor.ofSlices [Tensor.ofList [1, 2]]],
            fun a => if a then Tensor.ofSlices [Tensor.ofSlices [Tensor.ofList [4, 6]]]
              else Tensor.sc 99]
          output_dist := { cdf := fun t => t, density := fun t => t }
          output_interval := none } false
        = some [Tensor.ofList [3], Tensor.ofList [10]] := by
  refine ⟨?_, ?_, ?_⟩
  · norm_num [Lib.Model.kl_divergences, Lib.Model.kl_divergences_base, Lib.Model.klLevel,
      Tensor.sumDim, Tensor.sumDim0, Tensor.inSlices, Tensor.meanDim, Tensor.meanDim0,
      Tensor.rank, Tensor.shape, Tensor.len, Tensor.zip, Tensor.map, Tensor.ofList,
      Tensor.ofSlices, List.range, List.range.loop, List.foldlM, List.mapM, List.mapM.loop,
      List.range']
  · norm_num [Tensor.sumTrailing, Tensor.sumTrailingFuel, Tensor.sumDim, Tensor.sumDim0,
      Tensor.inSlices, Tensor.meanDim, Tensor.meanDim0, Tensor.rank, Tensor.shape, Tensor.len,
      Tensor.zip, Tensor.map, Tensor.ofList, Tensor.ofSlices]
  · norm_num [Lib.Model.kl_divergences, Lib.Model.kl_divergences_base, Lib.Model.klLevel,
      Tensor.sumDim, Tensor.sumDim0, Tensor.inSlices, Tensor.meanDim, Tensor.meanDim0,
      Tensor.rank, Tensor.shape, Tensor.len, Tensor.zip, Tensor.map, Tensor.ofList,
      Tensor.ofSlices, List.range, List.range.loop, List.foldlM, List.mapM, List.mapM.loop,
      List.range']

namespace Lib

theorem cdf_eval (ops : MathOps) (d : Normal) (mean log_var v : Tensor) (n : ℕ)
    (hm : d.mean = some mean) (hlv : d.log_var = some log_var)
    (hd1 : (Tensor.shape v)[1]? = some n) :
    Normal.cdf ops d v = .ok (Normal.cdf_core ops mean log_var v n) := by
  unfold Normal.cdf
  rw [hd1, hlv, hm]

theorem cdf_core_get (ops : MathOps) (mean log_var v : Tensor) (n : ℕ)
    (mE stdE : Tensor) (s : List ℕ)
    (hbranch : (if Tensor.rank mean = 2
      then (Tensor.expandSample n mean,
        Tensor.expandSample n (Tensor.map ops.exp (Tensor.map (· * (1 / 2)) log_var)))
      else (mean, Tensor.map ops.exp (Tensor.map (· * (1 / 2)) log_var))) = (mE, stdE))
    (hmE : Tensor.hasShape mE s = true) (hstdE : Tensor.hasShape stdE s = true)
    (hv : Tensor.hasShape v s = true) (p : List ℕ) (hp : Tensor.validIdx p s = true) :
    Tensor.get (Normal.cdf_core ops mean log_var v n) p
      = (1 + ops.erf ((Tensor.get v p - Tensor.get mE p)
          / (ops.sqrt2 * Tensor.get stdE p + 1 / 100000))) * (1 / 2) := by
  simp only [Normal.cdf_core]
  rw [hbranch]
  have hnum : Tensor.hasShape (Tensor.zip (· - ·) v (mE, stdE).1) s = true :=
    Tensor.hasShape_zip _ v mE s hv hmE
  have hden : Tensor.hasShape (Tensor.map (· + 1 / 100000)
      (Tensor.map (fun x => ops.sqrt2 * x) (mE, stdE).2)) s = true := by
    rw [Tensor.hasShape_map, Tensor.hasShape_map]
    exact hstdE
  have hq : Tensor.hasShape (Tensor.zip (· / ·)
      (Tensor.zip (· - ·) v (mE, stdE).1)
      (Tensor.map (· + 1 / 100000)
        (Tensor.map (fun x => ops.sqrt2 * x) (mE, stdE).2))) s = true :=
    Tensor.hasShape_zip _ _ _ s hnum hden
  rw [Tensor.get_map (· * (1 / 2)) _ p (Tensor.gok_of_hasShape _ s p (by
      rw [Tensor.hasShape_map, Tensor.hasShape_map]
      exact hq) hp)]
  rw [Tensor.get_map (fun x => 1 + x) _ p (Tensor.gok_of_hasShape _ s p (by
      rw [Tensor.hasShape_map]
      exact hq) hp)]
  rw [Tensor.get_map ops.erf _ p (Tensor.gok_of_hasShape _ s p hq hp)]
  rw [Tensor.get_zip (· / ·) _ _ s p hnum hden hp]
  rw [Tensor.get_zip (· - ·) v _ s p hv hmE hp]
  rw [Tensor.get_map (· + 1 / 100000) _ p (Tensor.gok_of_hasShape _ s p (by
      rw [Tensor.hasShape_map]
      exact hstdE) hp)]
  rw [Tensor.get_map (fun x => ops.sqrt2 * x) _ p (Tensor.gok_of_hasShape _ s p hstdE hp)]

theorem erf_form_mono (ops : MathOps) (herf : Monotone ops.erf) (m D x1 x2 : ℚ)
    (hD : 0 < D) (hx : x1 ≤ x2) :
    (1 + ops.erf ((x1 - m) / D)) * (1 / 2)
      ≤ (1 + ops.erf ((x2 - m) / D)) * (1 / 2) := by
  have hnum : x1 - m ≤ x2 - m := sub_le_sub_right hx _
  have hq := (div_le_div_iff_of_pos_right hD).mpr hnum
  have h1 := add_le_add_left (herf hq) 1
  exact mul_le_mul_of_nonneg_right h1 (by norm_num)

end Lib

/-- C8: for every `Normal` with fixed, set `mean` and `log_var`, `cdf` is
monotone non-decreasing in its value argument: for value tensors
`v1 ≤ v2` elementwise of the matching valid shape, `cdf(v1) ≤ cdf(v2)`
elementwise — both for rank-2 parameters (`[batch, variables]`, broadcast
across the value's sample dimension at axis 1, the expansion branch) and
for parameters of every other rank (already carrying the sample dimension,
e.g. rank 3 dense or rank 5 convolutional, used at their own shape) — for
every interpretation of the math kernels in which `erf` is monotone,
`exp` is positive and `sqrt(2)` is non-negative. -/
theorem claim_C8_cdf_monotone (ops : MathOps) (d : Lib.Normal) (mean log_var v1 v2 : Tensor)
    (hm : d.mean = some mean) (hlv : d.log_var = some log_var)
    (herf : Monotone ops.erf) (hexp : ∀ q, 0 < ops.exp q) (hsqrt : 0 ≤ ops.sqrt2) :
    (∀ b n k, Tensor.hasShape mean [b, k] = true → Tensor.hasShape log_var [b, k] = true →
      Tensor.hasShape v1 [b, n, k] = true → Tensor.hasShape v2 [b, n, k] = true → 0 < b →
      (∀ p, Tensor.validIdx p [b, n, k] = true → Tensor.get v1 p ≤ Tensor.get v2 p) →
      ∃ r1 r2, Lib.Normal.cdf ops d v1 = .ok r1 ∧ Lib.Normal.cdf ops d v2 = .ok r2 ∧
        ∀ p, Tensor.validIdx p [b, n, k] = true → Tensor.get r1 p ≤ Tensor.get r2 p) ∧
    (∀ b n rest, Tensor.rank mean ≠ 2 →
      Tensor.hasShape mean (b :: n :: rest) = true →
      Tensor.hasShape log_var (b :: n :: rest) = true →
      Tensor.hasShape v1 (b :: n :: rest) = true →
      Tensor.hasShape v2 (b :: n :: rest) = true → 0 < b →
      (∀ p, Tensor.validIdx p (b :: n :: rest) = true →
        Tensor.get v1 p ≤ Tensor.get v2 p) →
      ∃ r1 r2, Lib.Normal.cdf ops d v1 = .ok r1 ∧ Lib.Normal.cdf ops d v2 = .ok r2 ∧
        ∀ p, Tensor.validIdx p (b :: n :: rest) = true →
          Tensor.get r1 p ≤ Tensor.get r2 p) := by
  constructor
  · intro b n k hms hlvs hv1 hv2 hb hle
    have hrank2 : Tensor.rank mean = 2 :=
      Tensor.rank_eq_of_hasShape hms (by intro x hx; simp [List.dropLast] at hx; omega)
    have hd1 : (Tensor.shape v1)[1]? = some n := Tensor.shape_get1_of_hasShape hv1 hb
    have hd2 : (Tensor.shape v2)[1]? = some n := Tensor.shape_get1_of_hasShape hv2 hb
    have hstds : Tensor.hasShape (Tensor.map ops.exp
        (Tensor.map (· * (1 / 2)) log_var)) [b, k] = true := by
      rw [Tensor.hasShape_map, Tensor.hasShape_map]
      exact hlvs
    have hemean := Tensor.hasShape_expandSample n mean b [k] hms
    have hestd := Tensor.hasShape_expandSample n _ b [k] hstds
    have hbr : (if Tensor.rank mean = 2
        then (Tensor.expandSample n mean,
          Tensor.expandSample n (Tensor.map ops.exp (Tensor.map (· * (1 / 2)) log_var)))
        else (mean, Tensor.map ops.exp (Tensor.map (· * (1 / 2)) log_var)))
        = (Tensor.expandSample n mean,
          Tensor.expandSample n (Tensor.map ops.exp (Tensor.map (· * (1 / 2)) log_var))) := by
      rw [if_pos hrank2]
    refine ⟨_, _, Lib.cdf_eval ops d mean log_var v1 n hm hlv hd1,
      Lib.cdf_eval ops d mean log_var v2 n hm hlv hd2, ?_⟩
    intro p hp
    match p, hp with
    | [], hp => simp [Tensor.validIdx] at hp
    | [_], hp => simp [Tensor.validIdx] at hp
    | [_, _], hp => simp [Tensor.validIdx] at hp
    | _ :: _ :: _ :: _ :: _, hp => simp [Tensor.validIdx] at hp
    | [i, j, l], hp =>
      have hijl : i < b ∧ j < n ∧ l < k := by simpa [Tensor.validIdx] using hp
      have hil : Tensor.validIdx [i, l] [b, k] = true := by
        simp [Tensor.validIdx]
        omega
      have hg1 := Lib.cdf_core_get ops mean log_var v1 n _ _ [b, n, k] hbr
        hemean hestd hv1 [i, j, l] hp
      have hg2 := Lib.cdf_core_get ops mean log_var v2 n _ _ [b, n, k] hbr
        hemean hestd hv2 [i, j, l] hp
      rw [hg1, hg2]
      rw [Tensor.get_expandSample n mean i j [l] hijl.2.1]
      rw [Tensor.get_expandSample n (Tensor.map ops.exp (Tensor.map (· * (1 / 2)) log_var))
        i j [l] hijl.2.1]
      rw [Tensor.get_map ops.exp _ [i, l] (Tensor.gok_of_hasShape _ [b, k] [i, l] (by
          rw [Tensor.hasShape_map]
          exact hlvs) hil)]
      rw [Tensor.get_map (· * (1 / 2)) log_var [i, l]
        (Tensor.gok_of_hasShape log_var [b, k] [i, l] hlvs hil)]
      have hD : 0 < ops.sqrt2 * ops.exp (Tensor.get log_var [i, l] * (1 / 2)) + 1 / 100000 := by
        have h0 : 0 ≤ ops.sqrt2 * ops.exp (Tensor.get log_var [i, l] * (1 / 2)) :=
          mul_nonneg hsqrt (le_of_lt (hexp _))
        positivity
      exact Lib.erf_form_mono ops herf (Tensor.get mean [i, l]) _ _ _ hD (hle [i, j, l] hp)
  · intro b n rest hr2 hms hlvs hv1 hv2 hb hle
    have hd1 : (Tensor.shape v1)[1]? = some n := Tensor.shape_get1_of_hasShape hv1 hb
    have hd2 : (Tensor.shape v2)[1]? = some n := Tensor.shape_get1_of_hasShape hv2 hb
    have hstds : Tensor.hasShape (Tensor.map ops.exp
        (Tensor.map (· * (1 / 2)) log_var)) (b :: n :: rest) = true := by
      rw [Tensor.hasShape_map, Tensor.hasShape_map]
      exact hlvs
    have hbr : (if Tensor.rank mean = 2
        then (Tensor.expandSample n mean,
          Tensor.expandSample n (Tensor.map ops.exp (Tensor.map (· * (1 / 2)) log_var)))
        else (mean, Tensor.map ops.exp (Tensor.map (· * (1 / 2)) log_var)))
        = (mean, Tensor.map ops.exp (Tensor.map (· * (1 / 2)) log_var)) := by
      rw [if_neg hr2]
    refine ⟨_, _, Lib.cdf_eval ops d mean log_var v1 n hm hlv hd1,
      Lib.cdf_eval ops d mean log_var v2 n hm hlv hd2, ?_⟩
    intro p hp
    have hg1 := Lib.cdf_core_get ops mean log_var v1 n _ _ (b :: n :: rest) hbr
      hms hstds hv1 p hp
    have hg2 := Lib.cdf_core_get ops mean log_var v2 n _ _ (b :: n :: rest) hbr
      hms hstds hv2 p hp
    rw [hg1, hg2]
    rw [Tensor.get_map ops.exp _ p (Tensor.gok_of_hasShape _ (b :: n :: rest) p (by
        rw [Tensor.hasShape_map]
        exact hlvs) hp)]
    rw [Tensor.get_map (· * (1 / 2)) log_var p
      (Tensor.gok_of_hasShape log_var (b :: n :: rest) p hlvs hp)]
    have hD : 0 < ops.sqrt2 * ops.exp (Tensor.get log_var p * (1 / 2)) + 1 / 100000 := by
      have h0 : 0 ≤ ops.sqrt2 * ops.exp (Tensor.get log_var p * (1 / 2)) :=
        mul_nonneg hsqrt (le_of_lt (hexp _))
      positivity
    exact Lib.erf_form_mono ops herf (Tensor.get mean p) _ _ _ hD (hle p hp)

/-- Witness for C8: the rank-2 branch at a concrete standard-normal state
with `v1 ≤ v2`, and the no-expansion branch at a concrete rank-3 state. -/
theorem claim_C8_cdf_monotone_witness :
    (∃ r1 r2, Lib.Normal.cdf Lib.opsId
        { mean_reset_value := Tensor.ofList [0]
          log_var_reset_value := Tensor.ofList [0]
          mean := some (Tensor.ofSlices [Tensor.ofList [0]])
          log_var := some (Tensor.ofSlices [Tensor.ofList [0]])
          _sample := none }
        (Tensor.ofSlices [Tensor.ofSlices [Tensor.ofList [0]]]) = .ok r1 ∧
      Lib.Normal.cdf Lib.opsId
        { mean_reset_value := Tensor.ofList [0]
          log_var_reset_value := Tensor.ofList [0]
          mean := some (Tensor.ofSlices [Tensor.ofList [0]])
          log_var := some (Tensor.ofSlices [Tensor.ofList [0]])
          _sample := none }
        (Tensor.ofSlices [Tensor.ofSlices [Tensor.ofList [1]]]) = .ok r2 ∧
      ∀ p, Tensor.validIdx p [1, 1, 1] = true → Tensor.get r1 p ≤ Tensor.get r2 p) ∧
    (∃ r1 r2, Lib.Normal.cdf Lib.opsId
        { mean_reset_value := Tensor.ofList [0]
          log_var_reset_value := Tensor.ofList [0]
          mean := some (Tensor.ofSlices [Tensor.ofSlices [Tensor.ofList [0]]])
          log_var := some (Tensor.ofSlices [Tensor.ofSlices [Tensor.ofList [0]]])
          _sample := none }
        (Tensor.ofSlices [Tensor.ofSlices [Tensor.ofList [2]]]) = .ok r1 ∧
      Lib.Normal.cdf Lib.opsId
        { mean_reset_value := Tensor.ofList [0]
          log_var_reset_value := Tensor.ofList [0]
          mean := some (Tensor.ofSlices [Tensor.ofSlices [Tensor.ofList [0]]])
          log_var := some (Tensor.ofSlices [Tensor.ofSlices [Tensor.ofList [0]]])
          _sample := none }
        (Tensor.ofSlices [Tensor.ofSlices [Tensor.ofList [3]]]) = .ok r2 ∧
      ∀ p, Tensor.validIdx p [1, 1, 1] = true → Tensor.get r1 p ≤ Tensor.get r2 p) := by
  constructor
  · refine (claim_C8_cdf_monotone Lib.opsId
      { mean_reset_value := Tensor.ofList [0]
        log_var_reset_value := Tensor.ofList [0]
        mean := some (Tensor.ofSlices [Tensor.ofList [0]])
        log_var := some (Tensor.ofSlices [Tensor.ofList [0]])
        _sample := none }
      (Tensor.ofSlices [Tensor.ofList [0]]) (Tensor.ofSlices [Tensor.ofList [0]])
      (Tensor.ofSlices [Tensor.ofSlices [Tensor.ofList [0]]])
      (Tensor.ofSlices [Tensor.ofSlices [Tensor.ofList [1]]])
      rfl rfl (fun _ _ h => h) (fun _ => one_pos) zero_le_one).1
      1 1 1 (by decide) (by decide) (by decide) (by decide) (by decide) ?_
    intro p hp
    match p, hp with
    | [], hp => simp [Tensor.validIdx] at hp
    | [_], hp => simp [Tensor.validIdx] at hp
    | [_, _], hp => simp [Tensor.validIdx] at hp
    | _ :: _ :: _ :: _ :: _, hp => simp [Tensor.validIdx] at hp
    | [i, j, l], hp =>
      have : i < 1 ∧ j < 1 ∧ l < 1 := by simpa [Tensor.validIdx] using hp
      obtain ⟨hi, hj, hl⟩ := this
      interval_cases i
      interval_cases j
      interval_cases l
      norm_num [Tensor.get, Tensor.ofList, Tensor.ofSlices]
  · refine (claim_C8_cdf_monotone Lib.opsId
      { mean_reset_value := Tensor.ofList [0]
        log_var_reset_value := Tensor.ofList [0]
        mean := some (Tensor.ofSlices [Tensor.ofSlices [Tensor.ofList [0]]])
        log_var := some (Tensor.ofSlices [Tensor.ofSlices [Tensor.ofList [0]]])
        _sample := none }
      (Tensor.ofSlices [Tensor.ofSlices [Tensor.ofList [0]]])
      (Tensor.ofSlices [Tensor.ofSlices [Tensor.ofList [0]]])
      (Tensor.ofSlices [Tensor.ofSlices [Tensor.ofList [2]]])
      (Tensor.ofSlices [Tensor.ofSlices [Tensor.ofList [3]]])
      rfl rfl (fun _ _ h => h) (fun _ => one_pos) zero_le_one).2
      1 1 [1] (by decide) (by decide) (by decide) (by decide) (by decide) (by decide) ?_
    intro p hp
    match p, hp with
    | [], hp => simp [Tensor.validIdx] at hp
    | [_], hp => simp [Tensor.validIdx] at hp
    | [_, _], hp => simp [Tensor.validIdx] at hp
    | _ :: _ :: _ :: _ :: _, hp => simp [Tensor.validIdx] at hp
    | [i, j, l], hp =>
      have : i < 1 ∧ j < 1 ∧ l < 1 := by simpa [Tensor.validIdx] using hp
      obtain ⟨hi, hj, hl⟩ := this
      interval_cases i
      interval_cases j
      interval_cases l
      norm_num [Tensor.get, Tensor.ofList, Tensor.ofSlices]

namespace Lib

theorem Normal.log_prob_tensor_eval (ops : MathOps) (d : Normal) (noise mean log_var v : Tensor)
    (n : ℕ) (hm : d.mean = some mean) (hlv : d.log_var = some log_var)
    (hd1 : (Tensor.shape v)[1]? = some n) :
    Normal.log_prob ops d noise (.tensor v)
      = .ok (Normal.log_prob_core ops mean log_var v n, d) := by
  unfold Normal.log_prob Normal.log_prob_eval
  rw [hm, hlv]
  show (match (Tensor.shape v)[1]? with
    | none => Except.error "IndexError: tuple index out of range"
    | some n => Except.ok (Normal.log_prob_core ops mean log_var v n, d))
    = Except.ok (Normal.log_prob_core ops mean log_var v n, d)
  rw [hd1]

theorem log_prob_core_shape (ops : MathOps) (mean log_var v : Tensor) (n : ℕ)
    (mE lvE : Tensor) (s : List ℕ)
    (hbranch : (if Tensor.rank mean = 2 ∨ Tensor.rank mean = 4
      then (Tensor.expandSample n mean, Tensor.expandSample n log_var)
      else (mean, log_var)) = (mE, lvE))
    (hmE : Tensor.hasShape mE s = true) (hlvE : Tensor.hasShape lvE s = true)
    (hv : Tensor.hasShape v s = true) :
    Tensor.hasShape (Normal.log_prob_core ops mean log_var v n) s = true := by
  simp only [Normal.log_prob_core]
  rw [hbranch]
  rw [Tensor.hasShape_map]
  refine Tensor.hasShape_zip _ _ _ s (by rw [Tensor.hasShape_map]; exact hlvE) ?_
  refine Tensor.hasShape_zip _ _ _ s ?_ ?_
  · rw [Tensor.hasShape_map]
    exact Tensor.hasShape_zip _ v mE s hv hmE
  · rw [Tensor.hasShape_map, Tensor.hasShape_map]
    exact hlvE

theorem log_prob_core_get (ops : MathOps) (mean log_var v : Tensor) (n : ℕ)
    (mE lvE : Tensor) (s : List ℕ) (p : List ℕ)
    (hbranch : (if Tensor.rank mean = 2 ∨ Tensor.rank mean = 4
      then (Tensor.expandSample n mean, Tensor.expandSample n log_var)
      else (mean, log_var)) = (mE, lvE))
    (hmE : Tensor.hasShape mE s = true) (hlvE : Tensor.hasShape lvE s = true)
    (hv : Tensor.hasShape v s = true) (hp : Tensor.validIdx p s = true) :
    Tensor.get (Normal.log_prob_core ops mean log_var v n) p
      = (Tensor.get lvE p + ops.log2pi
          + (Tensor.get v p - Tensor.get mE p) ^ 2
            / (ops.exp (Tensor.get lvE p) + 1 / 100000)) * (-(1 / 2)) := by
  simp only [Normal.log_prob_core]
  rw [hbranch]
  have hT1 : Tensor.hasShape (Tensor.map (· + ops.log2pi) (mE, lvE).2) s = true := by
    rw [Tensor.hasShape_map]
    exact hlvE
  have hSQ : Tensor.hasShape (Tensor.map (fun x => x ^ 2)
      (Tensor.zip (· - ·) v (mE, lvE).1)) s = true := by
    rw [Tensor.hasShape_map]
    exact Tensor.hasShape_zip _ v mE s hv hmE
  have hDEN : Tensor.hasShape (Tensor.map (· + 1 / 100000)
      (Tensor.map ops.exp (mE, lvE).2)) s = true := by
    rw [Tensor.hasShape_map, Tensor.hasShape_map]
    exact hlvE
  have hT2 : Tensor.hasShape (Tensor.zip (· / ·)
      (Tensor.map (fun x => x ^ 2) (Tensor.zip (· - ·) v (mE, lvE).1))
      (Tensor.map (· + 1 / 100000) (Tensor.map ops.exp (mE, lvE).2))) s = true :=
    Tensor.hasShape_zip _ _ _ s hSQ hDEN
  have hSUM : Tensor.hasShape (Tensor.zip (· + ·) (Tensor.map (· + ops.log2pi) (mE, lvE).2)
      (Tensor.zip (· / ·)
        (Tensor.map (fun x => x ^ 2) (Tensor.zip (· - ·) v (mE, lvE).1))
        (Tensor.map (· + 1 / 100000) (Tensor.map ops.exp (mE, lvE).2)))) s = true :=
    Tensor.hasShape_zip _ _ _ s hT1 hT2
  rw [Tensor.get_map (· * (-(1 / 2))) _ p (Tensor.gok_of_hasShape _ s p hSUM hp)]
  rw [Tensor.get_zip (· + ·) _ _ s p hT1 hT2 hp]
  rw [Tensor.get_map (· + ops.log2pi) _ p (Tensor.gok_of_hasShape _ s p hlvE hp)]
  rw [Tensor.get_zip (· / ·) _ _ s p hSQ hDEN hp]
  rw [Tensor.get_map (fun x => x ^ 2) _ p
    (Tensor.gok_of_hasShape _ s p (Tensor.hasShape_zip _ v mE s hv hmE) hp)]
  rw [Tensor.get_zip (· - ·) v mE s p hv hmE hp]
  rw [Tensor.get_map (· + 1 / 100000) _ p
    (Tensor.gok_of_hasShape _ s p (by rw [Tensor.hasShape_map]; exact hlvE) hp)]
  rw [Tensor.get_map ops.exp lvE p (Tensor.gok_of_hasShape lvE s p hlvE hp)]

end Lib

/-- C3: on a set `Normal` and a non-tuple, non-`None` value carrying a
sample dimension at axis 1, `log_prob` returns, elementwise, the Gaussian
log-density `-0.5 * (log_var + log(2π) + (value - mean)^2 /
(exp(log_var) + 1e-5))`, with `mean`/`log_var` repeated across the sample
dimension of the value when they lack one — which the code detects as
parameter rank 2 (dense, `[batch, vars]` against `[batch, sample, vars]`)
or rank 4 (convolutional, `[batch, c, h, w]` against
`[batch, sample, c, h, w]`); parameters of any other rank (already carrying
the sample dimension, same shape as the value) are used as they are. -/
theorem claim_C3_log_prob_density (ops : MathOps) (d : Lib.Normal) (noise mean log_var v : Tensor)
    (hm : d.mean = some mean) (hlv : d.log_var = some log_var) :
    (∀ b n k, Tensor.hasShape mean [b, k] = true → Tensor.hasShape log_var [b, k] = true →
      Tensor.hasShape v [b, n, k] = true → 0 < b →
      ∃ r, Lib.Normal.log_prob ops d noise (.tensor v) = .ok (r, d) ∧
        Tensor.hasShape r [b, n, k] = true ∧
        ∀ i j l, i < b → j < n → l < k →
          Tensor.get r [i, j, l]
            = Lib.gaussK ops (Tensor.get mean [i, l]) (Tensor.get log_var [i, l])
                (Tensor.get v [i, j, l])) ∧
    (∀ b n c h w, Tensor.hasShape mean [b, c, h, w] = true →
      Tensor.hasShape log_var [b, c, h, w] = true →
      Tensor.hasShape v [b, n, c, h, w] = true → 0 < b → 0 < c → 0 < h →
      ∃ r, Lib.Normal.log_prob ops d noise (.tensor v) = .ok (r, d) ∧
        Tensor.hasShape r [b, n, c, h, w] = true ∧
        ∀ i j a y x, i < b → j < n → a < c → y < h → x < w →
          Tensor.get r [i, j, a, y, x]
            = Lib.gaussK ops (Tensor.get mean [i, a, y, x]) (Tensor.get log_var [i, a, y, x])
                (Tensor.get v [i, j, a, y, x])) ∧
    (∀ b n rest, Tensor.rank mean ≠ 2 → Tensor.rank mean ≠ 4 →
      Tensor.hasShape mean (b :: n :: rest) = true →
      Tensor.hasShape log_var (b :: n :: rest) = true →
      Tensor.hasShape v (b :: n :: rest) = true → 0 < b →
      ∃ r, Lib.Normal.log_prob ops d noise (.tensor v) = .ok (r, d) ∧
        Tensor.hasShape r (b :: n :: rest) = true ∧
        ∀ p, Tensor.validIdx p (b :: n :: rest) = true →
          Tensor.get r p
            = Lib.gaussK ops (Tensor.get mean p) (Tensor.get log_var p) (Tensor.get v p)) := by
  refine ⟨?_, ?_, ?_⟩
  · intro b n k hms hlvs hvs hb
    have hrank2 : Tensor.rank mean = 2 :=
      Tensor.rank_eq_of_hasShape hms (by intro x hx; simp [List.dropLast] at hx; omega)
    have hd1 : (Tensor.shape v)[1]? = some n := Tensor.shape_get1_of_hasShape hvs hb
    refine ⟨_, Lib.Normal.log_prob_tensor_eval ops d noise mean log_var v n hm hlv hd1, ?_, ?_⟩
    · exact Lib.log_prob_core_shape ops mean log_var v n _ _ [b, n, k]
        (by rw [if_pos (Or.inl hrank2)])
        (Tensor.hasShape_expandSample n mean b [k] hms)
        (Tensor.hasShape_expandSample n log_var b [k] hlvs)
        hvs
    · intro i j l hi hj hl
      have hp : Tensor.validIdx [i, j, l] [b, n, k] = true := by
        simp [Tensor.validIdx]
        omega
      have := Lib.log_prob_core_get ops mean log_var v n _ _ [b, n, k] [i, j, l]
        (by rw [if_pos (Or.inl hrank2)])
        (Tensor.hasShape_expandSample n mean b [k] hms)
        (Tensor.hasShape_expandSample n log_var b [k] hlvs)
        hvs hp
      rw [this, Tensor.get_expandSample n mean i j [l] hj,
        Tensor.get_expandSample n log_var i j [l] hj]
      unfold Lib.gaussK
      ring
  · intro b n c h w hms hlvs hvs hb hc hh
    have hrank4 : Tensor.rank mean = 4 :=
      Tensor.rank_eq_of_hasShape hms (by intro x hx; simp [List.dropLast] at hx; omega)
    have hd1 : (Tensor.shape v)[1]? = some n := Tensor.shape_get1_of_hasShape hvs hb
    refine ⟨_, Lib.Normal.log_prob_tensor_eval ops d noise mean log_var v n hm hlv hd1, ?_, ?_⟩
    · exact Lib.log_prob_core_shape ops mean log_var v n _ _ [b, n, c, h, w]
        (by rw [if_pos (Or.inr hrank4)])
        (Tensor.hasShape_expandSample n mean b [c, h, w] hms)
        (Tensor.hasShape_expandSample n log_var b [c, h, w] hlvs)
        hvs
    · intro i j a y x hi hj ha hy hx
      have hp : Tensor.validIdx [i, j, a, y, x] [b, n, c, h, w] = true := by
        simp [Tensor.validIdx]
        omega
      have := Lib.log_prob_core_get ops mean log_var v n _ _ [b, n, c, h, w] [i, j, a, y, x]
        (by rw [if_pos (Or.inr hrank4)])
        (Tensor.hasShape_expandSample n mean b [c, h, w] hms)
        (Tensor.hasShape_expandSample n log_var b [c, h, w] hlvs)
        hvs hp
      rw [this, Tensor.get_expandSample n mean i j [a, y, x] hj,
        Tensor.get_expandSample n log_var i j [a, y, x] hj]
      unfold Lib.gaussK
      ring
  · intro b n rest hr2 hr4 hms hlvs hvs hb
    have hd1 : (Tensor.shape v)[1]? = some n := Tensor.shape_get1_of_hasShape hvs hb
    refine ⟨_, Lib.Normal.log_prob_tensor_eval ops d noise mean log_var v n hm hlv hd1, ?_, ?_⟩
    · exact Lib.log_prob_core_shape ops mean log_var v n _ _ (b :: n :: rest)
        (by rw [if_neg (by simp [hr2, hr4])]) hms hlvs hvs
    · intro p hp
      have := Lib.log_prob_core_get ops mean log_var v n _ _ (b :: n :: rest) p
        (by rw [if_neg (by simp [hr2, hr4])]) hms hlvs hvs hp
      rw [this]
      unfold Lib.gaussK
      ring

theorem claim_C3_log_prob_density_witness :
    ∃ r, Lib.Normal.log_prob Lib.opsId
        { mean_reset_value := Tensor.ofList [0]
          log_var_reset_value := Tensor.ofList [0]
          mean := some (Tensor.ofSlices [Tensor.ofList [3]])
          log_var := some (Tensor.ofSlices [Tensor.ofList [0]])
          _sample := none }
        (Tensor.sc 0)
        (.tensor (Tensor.ofSlices [Tensor.ofSlices [Tensor.ofList [5]]]))
      = .ok (r,
        { mean_reset_value := Tensor.ofList [0]
          log_var_reset_value := Tensor.ofList [0]
          mean := some (Tensor.ofSlices [Tensor.ofList [3]])
          log_var := some (Tensor.ofSlices [Tensor.ofList [0]])
          _sample := none }) ∧
      Tensor.hasShape r [1, 1, 1] = true ∧
      Tensor.get r [0, 0, 0] = Lib.gaussK Lib.opsId 3 0 5 := by
  obtain ⟨r, heq, hsh, hget⟩ :=
    (claim_C3_log_prob_density Lib.opsId
      { mean_reset_value := Tensor.ofList [0]
        log_var_reset_value := Tensor.ofList [0]
        mean := some (Tensor.ofSlices [Tensor.ofList [3]])
        log_var := some (Tensor.ofSlices [Tensor.ofList [0]])
        _sample := none }
      (Tensor.sc 0)
      (Tensor.ofSlices [Tensor.ofList [3]]) (Tensor.ofSlices [Tensor.ofList [0]])
      (Tensor.ofSlices [Tensor.ofSlices [Tensor.ofList [5]]]) rfl rfl).1
      1 1 1 (by decide) (by decide) (by decide) (by decide)
  refine ⟨r, heq, hsh, ?_⟩
  rw [hget 0 0 0 (by decide) (by decide) (by decide)]
  rfl

/-- C4: `conditional_log_likelihoods(observation, averaged)` inserts a
sample dimension at axis 1 exactly when the observation rank is 2 or 4
(the shapes lacking one); when `output_interval` is set it evaluates the
interval log-mass `log(cdf(observation + output_interval) -
cdf(observation) + 1e-6)` and otherwise the output distribution's
log-density at the observation; then sums over every non-batch,
non-sample dimension, averages over the sample dimension, and averages
over the batch dimension iff `averaged`. -/
theorem claim_C4_conditional_log_likelihoods (ops : MathOps) (m : Lib.Model)
    (observation obsV : Tensor) (averaged : Bool)
    (hobs : obsV = (if Tensor.rank observation = 2 ∨ Tensor.rank observation = 4
      then Tensor.unsqueeze1 observation else observation)) :
    (∀ b ds, (Tensor.rank observation = 2 ∨ Tensor.rank observation = 4) →
      Tensor.hasShape observation (b :: ds) = true →
      Tensor.hasShape obsV (b :: 1 :: ds) = true ∧
      ∀ i p, Tensor.get obsV (i :: 0 :: p) = Tensor.get observation (i :: p)) ∧
    (∀ lp b n ds, m.output_interval = none →
      lp = m.output_dist.density obsV →
      Tensor.hasShape lp (b :: n :: ds) = true →
      0 < b → 0 < n → (∀ d ∈ ds, 0 < d) →
      ∃ r, Lib.Model.conditional_log_likelihoods ops m observation averaged = some r ∧
        (averaged = false →
          Tensor.hasShape r [b] = true ∧
          ∀ i, i < b → Tensor.get r [i]
            = (∑ j ∈ Finset.range n,
                ((Tensor.allIdx ds).map (fun p => Tensor.get lp (i :: j :: p))).sum) / n) ∧
        (averaged = true →
          Tensor.hasShape r [] = true ∧
          Tensor.get r []
            = (∑ i ∈ Finset.range b, (∑ j ∈ Finset.range n,
                ((Tensor.allIdx ds).map (fun p => Tensor.get lp (i :: j :: p))).sum) / n)
              / b)) ∧
    (∀ iv c0 c1 b n ds, m.output_interval = some iv →
      c0 = m.output_dist.cdf obsV →
      c1 = m.output_dist.cdf (Tensor.map (· + iv) obsV) →
      Tensor.hasShape c0 (b :: n :: ds) = true →
      Tensor.hasShape c1 (b :: n :: ds) = true →
      0 < b → 0 < n → (∀ d ∈ ds, 0 < d) →
      ∃ r, Lib.Model.conditional_log_likelihoods ops m observation averaged = some r ∧
        (averaged = false →
          Tensor.hasShape r [b] = true ∧
          ∀ i, i < b → Tensor.get r [i]
            = (∑ j ∈ Finset.range n, ((Tensor.allIdx ds).map (fun p =>
                ops.log (Tensor.get c1 (i :: j :: p) - Tensor.get c0 (i :: j :: p)
                  + 1 / 1000000))).sum) / n) ∧
        (averaged = true →
          Tensor.hasShape r [] = true ∧
          Tensor.get r []
            = (∑ i ∈ Finset.range b, (∑ j ∈ Finset.range n, ((Tensor.allIdx ds).map (fun p =>
                ops.log (Tensor.get c1 (i :: j :: p) - Tensor.get c0 (i :: j :: p)
                  + 1 / 1000000))).sum) / n) / b)) := by
  refine ⟨?_, ?_, ?_⟩
  · intro b ds hr h
    rw [hobs, if_pos hr]
    exact ⟨Tensor.hasShape_unsqueeze1 observation b ds h,
      fun i p => Tensor.get_unsqueeze1 observation i p⟩
  · intro lp b n ds hiv hlp hs hb hn hpos
    obtain ⟨u, hu, hus, huq⟩ := Tensor.sumTrailing_spec lp b n ds hs hb hn hpos
    obtain ⟨u2, hu2, hu2s, hu2q⟩ := Tensor.meanDim1_spec u b n [] hus hn
    have hform : ∀ i, i < b → Tensor.get u2 [i]
        = (∑ j ∈ Finset.range n,
            ((Tensor.allIdx ds).map (fun p => Tensor.get lp (i :: j :: p))).sum) / n := by
      intro i hi
      rw [hu2q i [] hi rfl]
      congr 1
      refine Finset.sum_congr rfl ?_
      intro j hj
      exact huq i j hi (Finset.mem_range.mp hj)
    have hbase : Lib.Model.cll_base ops m observation = some u2 := by
      simp only [Lib.Model.cll_base, hiv, Lib.OutDist.log_prob]
      rw [← hobs, ← hlp, hu]
      exact hu2
    cases averaged with
    | false =>
      refine ⟨u2, ?_, ?_, ?_⟩
      · have := Lib.Model.cll_of_base ops m observation u2 hbase false
        simpa using this
      · intro _
        exact ⟨hu2s, hform⟩
      · intro hcontra
        exact absurd hcontra (by simp)
    | true =>
      obtain ⟨u3, hu3, hu3s, hu3q⟩ := Tensor.meanDim0_spec u2 b [] hu2s hb
      refine ⟨u3, ?_, ?_, ?_⟩
      · have := Lib.Model.cll_of_base ops m observation u2 hbase true
        rw [this]
        exact hu3
      · intro hcontra
        exact absurd hcontra (by simp)
      · intro _
        refine ⟨hu3s, ?_⟩
        rw [hu3q [] rfl]
        congr 1
        refine Finset.sum_congr rfl ?_
        intro i hi
        exact hform i (Finset.mem_range.mp hi)
  · intro iv c0 c1 b n ds hiv hc0 hc1 hc0s hc1s hb hn hpos
    have hzs : Tensor.hasShape (Tensor.zip (· - ·) c1 c0) (b :: n :: ds) = true :=
      Tensor.hasShape_zip _ c1 c0 _ hc1s hc0s
    have hlpS : Tensor.hasShape (Tensor.map ops.log (Tensor.map (· + 1 / 1000000)
        (Tensor.zip (· - ·) c1 c0))) (b :: n :: ds) = true := by
      rw [Tensor.hasShape_map, Tensor.hasShape_map]
      exact hzs
    have hlpG : ∀ q, Tensor.validIdx q (b :: n :: ds) = true →
        Tensor.get (Tensor.map ops.log (Tensor.map (· + 1 / 1000000)
          (Tensor.zip (· - ·) c1 c0))) q
          = ops.log (Tensor.get c1 q - Tensor.get c0 q + 1 / 1000000) := by
      intro q hq
      rw [Tensor.get_map ops.log _ q (Tensor.gok_of_hasShape _ _ q
        (by rw [Tensor.hasShape_map]; exact hzs) hq)]
      rw [Tensor.get_map (· + 1 / 1000000) _ q (Tensor.gok_of_hasShape _ _ q hzs hq)]
      rw [Tensor.get_zip (· - ·) c1 c0 _ q hc1s hc0s hq]
    obtain ⟨u, hu, hus, huq⟩ := Tensor.sumTrailing_spec _ b n ds hlpS hb hn hpos
    obtain ⟨u2, hu2, hu2s, hu2q⟩ := Tensor.meanDim1_spec u b n [] hus hn
    have hform : ∀ i, i < b → Tensor.get u2 [i]
        = (∑ j ∈ Finset.range n, ((Tensor.allIdx ds).map (fun p =>
            ops.log (Tensor.get c1 (i :: j :: p) - Tensor.get c0 (i :: j :: p)
              + 1 / 1000000))).sum) / n := by
      intro i hi
      rw [hu2q i [] hi rfl]
      congr 1
      refine Finset.sum_congr rfl ?_
      intro j hj
      rw [huq i j hi (Finset.mem_range.mp hj)]
      congr 1
      refine List.map_congr_left ?_
      intro p hp
      refine hlpG (i :: j :: p) ?_
      simp only [Tensor.validIdx, Bool.and_eq_true, decide_eq_true_eq]
      exact ⟨hi, Finset.mem_range.mp hj, Tensor.allIdx_valid ds p hp⟩
    have hbase : Lib.Model.cll_base ops m observation = some u2 := by
      simp only [Lib.Model.cll_base, hiv, Lib.OutDist.log_prob]
      rw [← hobs, ← hc0, ← hc1, hu]
      exact hu2
    cases averaged with
    | false =>
      refine ⟨u2, ?_, ?_, ?_⟩
      · have := Lib.Model.cll_of_base ops m observation u2 hbase false
        simpa using this
      · intro _
        exact ⟨hu2s, hform⟩
      · intro hcontra
        exact absurd hcontra (by simp)
    | true =>
      obtain ⟨u3, hu3, hu3s, hu3q⟩ := Tensor.meanDim0_spec u2 b [] hu2s hb
      refine ⟨u3, ?_, ?_, ?_⟩
      · have := Lib.Model.cll_of_base ops m observation u2 hbase true
        rw [this]
        exact hu3
      · intro hcontra
        exact absurd hcontra (by simp)
      · intro _
        refine ⟨hu3s, ?_⟩
        rw [hu3q [] rfl]
        congr 1
        refine Finset.sum_congr rfl ?_
        intro i hi
        exact hform i (Finset.mem_range.mp hi)

theorem claim_C4_conditional_log_likelihoods_witness :
    ∃ r, Lib.Model.conditional_log_likelihoods Lib.opsId
        { levelKLs := []
          output_dist := { cdf := fun t => t, density := fun t => t }
          output_interval := none }
        (Tensor.ofSlices [Tensor.ofSlices [Tensor.ofList [5]]]) true = some r ∧
      Tensor.hasShape r [] = true ∧ Tensor.get r [] = 5 := by
  obtain ⟨r, hr, _, ht⟩ :=
    (claim_C4_conditional_log_likelihoods Lib.opsId
      { levelKLs := []
        output_dist := { cdf := fun t => t, density := fun t => t }
        output_interval := none }
      (Tensor.ofSlices [Tensor.ofSlices [Tensor.ofList [5]]])
      (Tensor.ofSlices [Tensor.ofSlices [Tensor.ofList [5]]]) true rfl).2.1
      (Tensor.ofSlices [Tensor.ofSlices [Tensor.ofList [5]]]) 1 1 [1]
      rfl rfl (by decide) (by decide) (by decide) (by decide)
  obtain ⟨hsh, hval⟩ := ht rfl
  refine ⟨r, hr, hsh, ?_⟩
  rw [hval]
  norm_num [Tensor.allIdx, Tensor.get, Tensor.ofSlices, Tensor.ofList,
    List.range_succ, Finset.sum_range_one]

namespace Lib

theorem Heap.read_alloc (h : Heap) (t : Tensor) (r : ℕ) (hr : r < h.size) :
    (h.alloc t).2.read r = h.read r := by
  show (h.cells ++ [t]).getD r (.sc 0) = h.cells.getD r (.sc 0)
  exact List.getD_append h.cells [t] (.sc 0) r hr

theorem Heap.size_alloc (h : Heap) (t : Tensor) : (h.alloc t).2.size = h.size + 1 := by
  show (h.cells ++ [t]).length = h.cells.length + 1
  simp

theorem Heap.read_write_ne (h : Heap) (a : ℕ) (t : Tensor) (r : ℕ) (hr : r ≠ a) :
    (h.write a t).read r = h.read r := by
  show (h.cells.set a t).getD r (.sc 0) = h.cells.getD r (.sc 0)
  simp [List.getD]
  rw [List.getElem?_set_ne (by omega)]

theorem Heap.size_write (h : Heap) (a : ℕ) (t : Tensor) : (h.write a t).size = h.size := by
  show (h.cells.set a t).length = h.cells.length
  exact List.length_set h.cells a t

theorem Heap.frameGE_trans (k : ℕ) (h1 h2 h3 : Heap)
    (a : Heap.frameGE k h1 h2) (b : Heap.frameGE k h2 h3) : Heap.frameGE k h1 h3 :=
  ⟨b.1, fun r hr => (b.2 r hr).trans (a.2 r hr)⟩

theorem frameGE_tNew1 (k : ℕ) (f : ℚ → ℚ) (a : ℕ) (h : Heap) (hk : k ≤ h.size) :
    Heap.frameGE k h (tNew1 f a h).2 := by
  refine ⟨?_, ?_⟩
  · show k ≤ (h.alloc (Tensor.map f (h.read a))).2.size
    rw [Heap.size_alloc]
    omega
  · intro r hr
    exact Heap.read_alloc h _ r (lt_of_lt_of_le hr hk)

theorem frameGE_tNew2 (k : ℕ) (f : ℚ → ℚ → ℚ) (a b : ℕ) (h : Heap) (hk : k ≤ h.size) :
    Heap.frameGE k h (tNew2 f a b h).2 := by
  refine ⟨?_, ?_⟩
  · show k ≤ (h.alloc (Tensor.zip f (h.read a) (h.read b))).2.size
    rw [Heap.size_alloc]
    omega
  · intro r hr
    exact Heap.read_alloc h _ r (lt_of_lt_of_le hr hk)

theorem frameGE_tExpand (k n : ℕ) (a : ℕ) (h : Heap) (hk : k ≤ h.size) :
    Heap.frameGE k h (tExpand n a h).2 := by
  refine ⟨?_, ?_⟩
  · show k ≤ (h.alloc (Tensor.expandSample n (h.read a))).2.size
    rw [Heap.size_alloc]
    omega
  · intro r hr
    exact Heap.read_alloc h _ r (lt_of_lt_of_le hr hk)

theorem frameGE_tInp1 (k : ℕ) (f : ℚ → ℚ) (a : ℕ) (h : Heap)
    (ha : k ≤ a) (hk : k ≤ h.size) : Heap.frameGE k h (tInp1 f a h).2 := by
  refine ⟨?_, ?_⟩
  · show k ≤ (h.write a (Tensor.map f (h.read a))).size
    rw [Heap.size_write]
    exact hk
  · intro r hr
    exact Heap.read_write_ne h a _ r (by omega)

theorem frameGE_tInp2 (k : ℕ) (f : ℚ → ℚ → ℚ) (a b : ℕ) (h : Heap)
    (ha : k ≤ a) (hk : k ≤ h.size) : Heap.frameGE k h (tInp2 f a b h).2 := by
  refine ⟨?_, ?_⟩
  · show k ≤ (h.write a (Tensor.zip f (h.read a) (h.read b))).size
    rw [Heap.size_write]
    exact hk
  · intro r hr
    exact Heap.read_write_ne h a _ r (by omega)

theorem Normal.cdfST_frame (ops : MathOps) (rmean rlog_var rvalue : ℕ) (h : Heap) :
    Heap.frameGE h.size h (Normal.cdfST ops rmean rlog_var rvalue h).2 := by
  let n : ℕ := ((Tensor.shape (h.read rvalue))[1]?).getD 0
  let s1 := tNew1 (· * (1 / 2)) rlog_var h
  let s2 := tInp1 ops.exp s1.1 s1.2
  let s3 := if Tensor.rank (s2.2.read rmean) = 2 then
      ((tExpand n rmean s2.2).1, (tExpand n s2.1 (tExpand n rmean s2.2).2).1,
        (tExpand n s2.1 (tExpand n rmean s2.2).2).2)
    else (rmean, s2.1, s2.2)
  let s4 := tNew2 (· - ·) rvalue s3.1 s3.2.2
  let s5 := tNew1 (fun x => ops.sqrt2 * x) s3.2.1 s4.2
  let s6 := tNew1 (· + 1 / 100000) s5.1 s5.2
  let s7 := tNew2 (· / ·) s4.1 s6.1 s6.2
  let s8 := tNew1 ops.erf s7.1 s7.2
  let s9 := tNew1 (fun x => 1 + x) s8.1 s8.2
  have heq : (Normal.cdfST ops rmean rlog_var rvalue h).2
      = (tInp1 (· * (1 / 2)) s9.1 s9.2).2 := rfl
  rw [heq]
  have F1 : Heap.frameGE h.size h s1.2 :=
    frameGE_tNew1 h.size (· * (1 / 2)) rlog_var h (le_refl _)
  have hs1fst : s1.1 = h.size := rfl
  have F2 : Heap.frameGE h.size h s2.2 :=
    Heap.frameGE_trans _ _ _ _ F1
      (frameGE_tInp1 h.size ops.exp s1.1 s1.2 (by rw [hs1fst]) F1.1)
  have F3 : Heap.frameGE h.size h s3.2.2 := by
    show Heap.frameGE h.size h
      (if Tensor.rank (s2.2.read rmean) = 2 then
        ((tExpand n rmean s2.2).1, (tExpand n s2.1 (tExpand n rmean s2.2).2).1,
          (tExpand n s2.1 (tExpand n rmean s2.2).2).2)
      else (rmean, s2.1, s2.2)).2.2
    by_cases hc : Tensor.rank (s2.2.read rmean) = 2
    · rw [if_pos hc]
      have G1 : Heap.frameGE h.size h (tExpand n rmean s2.2).2 :=
        Heap.frameGE_trans _ _ _ _ F2 (frameGE_tExpand h.size n rmean s2.2 F2.1)
      have G2 : Heap.frameGE h.size h (tExpand n s2.1 (tExpand n rmean s2.2).2).2 :=
        Heap.frameGE_trans _ _ _ _ G1
          (frameGE_tExpand h.size n s2.1 (tExpand n rmean s2.2).2 G1.1)
      exact G2
    · rw [if_neg hc]
      exact F2
  have F4 : Heap.frameGE h.size h s4.2 :=
    Heap.frameGE_trans _ _ _ _ F3 (frameGE_tNew2 h.size (· - ·) rvalue s3.1 s3.2.2 F3.1)
  have F5 : Heap.frameGE h.size h s5.2 :=
    Heap.frameGE_trans _ _ _ _ F4 (frameGE_tNew1 h.size (fun x => ops.sqrt2 * x) s3.2.1 s4.2 F4.1)
  have F6 : Heap.frameGE h.size h s6.2 :=
    Heap.frameGE_trans _ _ _ _ F5 (frameGE_tNew1 h.size (· + 1 / 100000) s5.1 s5.2 F5.1)
  have F7 : Heap.frameGE h.size h s7.2 :=
    Heap.frameGE_trans _ _ _ _ F6 (frameGE_tNew2 h.size (· / ·) s4.1 s6.1 s6.2 F6.1)
  have F8 : Heap.frameGE h.size h s8.2 :=
    Heap.frameGE_trans _ _ _ _ F7 (frameGE_tNew1 h.size ops.erf s7.1 s7.2 F7.1)
  have F9 : Heap.frameGE h.size h s9.2 :=
    Heap.frameGE_trans _ _ _ _ F8 (frameGE_tNew1 h.size (fun x => 1 + x) s8.1 s8.2 F8.1)
  have hs9fst : s9.1 = s8.2.size := rfl
  exact Heap.frameGE_trans _ _ _ _ F9
    (frameGE_tInp1 h.size (· * (1 / 2)) s9.1 s9.2 (by rw [hs9fst]; exact F8.1) F9.1)

theorem Normal.log_probST_frame (ops : MathOps) (rmean rlog_var rvalue : ℕ) (h : Heap) :
    Heap.frameGE h.size h (Normal.log_probST ops rmean rlog_var rvalue h).2 := by
  let n : ℕ := ((Tensor.shape (h.read rvalue))[1]?).getD 0
  let ml := if Tensor.rank (h.read rmean) = 2 ∨ Tensor.rank (h.read rmean) = 4 then
      ((tExpand n rmean h).1, (tExpand n rlog_var (tExpand n rmean h).2).1,
        (tExpand n rlog_var (tExpand n rmean h).2).2)
    else (rmean, rlog_var, h)
  let t1 := tNew1 (· + ops.log2pi) ml.2.1 ml.2.2
  let t2 := tNew2 (· - ·) rvalue ml.1 t1.2
  let t3 := tInp1 (fun x => x ^ 2) t2.1 t2.2
  let t4 := tNew1 ops.exp ml.2.1 t3.2
  let t5 := tNew1 (· + 1 / 100000) t4.1 t4.2
  let t6 := tInp2 (· / ·) t3.1 t5.1 t5.2
  let t7 := tInp2 (· + ·) t1.1 t6.1 t6.2
  have heq : (Normal.log_probST ops rmean rlog_var rvalue h).2
      = (tInp1 (· * (-(1 / 2))) t7.1 t7.2).2 := rfl
  rw [heq]
  have F0 : Heap.frameGE h.size h ml.2.2 := by
    show Heap.frameGE h.size h
      (if Tensor.rank (h.read rmean) = 2 ∨ Tensor.rank (h.read rmean) = 4 then
        ((tExpand n rmean h).1, (tExpand n rlog_var (tExpand n rmean h).2).1,
          (tExpand n rlog_var (tExpand n rmean h).2).2)
      else (rmean, rlog_var, h)).2.2
    by_cases hc : Tensor.rank (h.read rmean) = 2 ∨ Tensor.rank (h.read rmean) = 4
    · rw [if_pos hc]
      have G1 : Heap.frameGE h.size h (tExpand n rmean h).2 :=
        frameGE_tExpand h.size n rmean h (le_refl _)
      have G2 : Heap.frameGE h.size h (tExpand n rlog_var (tExpand n rmean h).2).2 :=
        Heap.frameGE_trans _ _ _ _ G1
          (frameGE_tExpand h.size n rlog_var (tExpand n rmean h).2 G1.1)
      exact G2
    · rw [if_neg hc]
      exact ⟨le_refl _, fun _ _ => rfl⟩
  have F1 : Heap.frameGE h.size h t1.2 :=
    Heap.frameGE_trans _ _ _ _ F0 (frameGE_tNew1 h.size (· + ops.log2pi) ml.2.1 ml.2.2 F0.1)
  have ht1fst : t1.1 = ml.2.2.size := rfl
  have F2 : Heap.frameGE h.size h t2.2 :=
    Heap.frameGE_trans _ _ _ _ F1 (frameGE_tNew2 h.size (· - ·) rvalue ml.1 t1.2 F1.1)
  have ht2fst : t2.1 = t1.2.size := rfl
  have F3 : Heap.frameGE h.size h t3.2 :=
    Heap.frameGE_trans _ _ _ _ F2
      (frameGE_tInp1 h.size (fun x => x ^ 2) t2.1 t2.2 (by rw [ht2fst]; exact F1.1) F2.1)
  have F4 : Heap.frameGE h.size h t4.2 :=
    Heap.frameGE_trans _ _ _ _ F3 (frameGE_tNew1 h.size ops.exp ml.2.1 t3.2 F3.1)
  have F5 : Heap.frameGE h.size h t5.2 :=
    Heap.frameGE_trans _ _ _ _ F4 (frameGE_tNew1 h.size (· + 1 / 100000) t4.1 t4.2 F4.1)
  have ht3fst : t3.1 = t2.1 := rfl
  have F6 : Heap.frameGE h.size h t6.2 :=
    Heap.frameGE_trans _ _ _ _ F5
      (frameGE_tInp2 h.size (· / ·) t3.1 t5.1 t5.2
        (by rw [ht3fst, ht2fst]; exact F1.1) F5.1)
  have ht6fst : t6.1 = t3.1 := rfl
  have F7 : Heap.frameGE h.size h t7.2 :=
    Heap.frameGE_trans _ _ _ _ F6
      (frameGE_tInp2 h.size (· + ·) t1.1 t6.1 t6.2
        (by rw [ht1fst]; exact F0.1) F6.1)
  have ht7fst : t7.1 = t1.1 := rfl
  exact Heap.frameGE_trans _ _ _ _ F7
    (frameGE_tInp1 h.size (· * (-(1 / 2))) t7.1 t7.2
      (by rw [ht7fst, ht1fst]; exact F0.1) F7.1)

end Lib

/-- C10: with `mean`, `log_var`, the cached sample and the caller's `value`
held in store cells `rmean`, `rlog_var`, `rsample`, `rvalue` of the initial
store, `Normal.cdf(value)` and the density branch of
`Normal.log_prob(value)` never change any pre-existing cell: every in-place
torch call (`exp_`, `pow_`, `div_`, `add_`, `mul_`) in the two methods hits
only freshly allocated intermediates, so the distribution's parameters, its
cached sample, and the argument tensor all read back unchanged. -/
theorem claim_C10_frame_effects (ops : MathOps) (rmean rlog_var rvalue rsample : ℕ)
    (h : Lib.Heap) (hm : rmean < h.size) (hl : rlog_var < h.size)
    (hv : rvalue < h.size) (hs : rsample < h.size) :
    (∀ r, r < h.size →
      (Lib.Normal.cdfST ops rmean rlog_var rvalue h).2.read r = h.read r) ∧
    (∀ r, r < h.size →
      (Lib.Normal.log_probST ops rmean rlog_var rvalue h).2.read r = h.read r) ∧
    (Lib.Normal.cdfST ops rmean rlog_var rvalue h).2.read rmean = h.read rmean ∧
    (Lib.Normal.cdfST ops rmean rlog_var rvalue h).2.read rlog_var = h.read rlog_var ∧
    (Lib.Normal.cdfST ops rmean rlog_var rvalue h).2.read rvalue = h.read rvalue ∧
    (Lib.Normal.cdfST ops rmean rlog_var rvalue h).2.read rsample = h.read rsample ∧
    (Lib.Normal.log_probST ops rmean rlog_var rvalue h).2.read rmean = h.read rmean ∧
    (Lib.Normal.log_probST ops rmean rlog_var rvalue h).2.read rlog_var = h.read rlog_var ∧
    (Lib.Normal.log_probST ops rmean rlog_var rvalue h).2.read rvalue = h.read rvalue ∧
    (Lib.Normal.log_probST ops rmean rlog_var rvalue h).2.read rsample = h.read rsample := by
  have hc := Lib.Normal.cdfST_frame ops rmean rlog_var rvalue h
  have hp := Lib.Normal.log_probST_frame ops rmean rlog_var rvalue h
  exact ⟨hc.2, hp.2, hc.2 rmean hm, hc.2 rlog_var hl, hc.2 rvalue hv, hc.2 rsample hs,
    hp.2 rmean hm, hp.2 rlog_var hl, hp.2 rvalue hv, hp.2 rsample hs⟩

theorem claim_C10_frame_effects_witness :
    (Lib.Normal.cdfST Lib.opsId 0 1 2
      ⟨[Tensor.sc 1, Tensor.sc 2, Tensor.sc 3, Tensor.sc 4]⟩).2.read 0 = Tensor.sc 1 ∧
    (Lib.Normal.cdfST Lib.opsId 0 1 2
      ⟨[Tensor.sc 1, Tensor.sc 2, Tensor.sc 3, Tensor.sc 4]⟩).2.read 1 = Tensor.sc 2 ∧
    (Lib.Normal.cdfST Lib.opsId 0 1 2
      ⟨[Tensor.sc 1, Tensor.sc 2, Tensor.sc 3, Tensor.sc 4]⟩).2.read 2 = Tensor.sc 3 ∧
    (Lib.Normal.cdfST Lib.opsId 0 1 2
      ⟨[Tensor.sc 1, Tensor.sc 2, Tensor.sc 3, Tensor.sc 4]⟩).2.read 3 = Tensor.sc 4 ∧
    (Lib.Normal.log_probST Lib.opsId 0 1 2
      ⟨[Tensor.sc 1, Tensor.sc 2, Tensor.sc 3, Tensor.sc 4]⟩).2.read 0 = Tensor.sc 1 ∧
    (Lib.Normal.log_probST Lib.opsId 0 1 2
      ⟨[Tensor.sc 1, Tensor.sc 2, Tensor.sc 3, Tensor.sc 4]⟩).2.read 1 = Tensor.sc 2 ∧
    (Lib.Normal.log_probST Lib.opsId 0 1 2
      ⟨[Tensor.sc 1, Tensor.sc 2, Tensor.sc 3, Tensor.sc 4]⟩).2.read 2 = Tensor.sc 3 ∧
    (Lib.Normal.log_probST Lib.opsId 0 1 2
      ⟨[Tensor.sc 1, Tensor.sc 2, Tensor.sc 3, Tensor.sc 4]⟩).2.read 3 = Tensor.sc 4 := by
  obtain ⟨-, -, h1, h2, h3, h4, h5, h6, h7, h8⟩ :=
    claim_C10_frame_effects Lib.opsId 0 1 2 3
      ⟨[Tensor.sc 1, Tensor.sc 2, Tensor.sc 3, Tensor.sc 4]⟩
      (by decide) (by decide) (by decide) (by decide)
  exact ⟨h1.trans rfl, h2.trans rfl, h3.trans rfl, h4.trans rfl,
    h5.trans rfl, h6.trans rfl, h7.trans rfl, h8.trans rfl⟩
